import Mathlib

set_option maxHeartbeats 1000000

/-!
Verification of the sorted-block reader and its access metrics
(`table/block.cc`): block geometry validation, the prefix-compressed
entry codec, the bidirectional seekable iterator, and the
`BlockMetrics` bitmap with its (de)serialization.

Byte buffers are embedded as `List Nat` (one element per byte);
machine integers are `Nat` with explicit `% 2 ^ 32` / `% 2 ^ 64`
where the C arithmetic can wrap.  The varint and fixed-integer
codecs (`util/coding.cc`) and the bytewise comparator are external
collaborators of this file's source and are modelled from the
specification's description of them.
-/

/-- Iterator status: `ok`, or sticky `corruption` with a message. -/
inductive St where
  | ok : St
  | corruption : String → St
  deriving DecidableEq

/-- Read one byte of a buffer (out-of-range reads default to 0; all
uses are guarded by the well-formedness side conditions). -/
def byteAt (data : List Nat) (i : Nat) : Nat := data.getD i 0

/-- The byte range `[off, off+len)` of a buffer. -/
def sliceBytes (data : List Nat) (off len : Nat) : List Nat :=
  (data.drop off).take len

/-- Modelled from the spec: `util/coding.cc` is not under `src/`; the
spec (§6) consumes a standard little-endian base-128 varint32 with
continuation bit.  Decodes from a byte list, with the running `shift`
(7 bits per continuation byte, at most 5 bytes, i.e. `shift ≤ 28`) and
accumulator; returns the decoded value (truncated to 32 bits, as the
C accumulator is a `uint32_t`) and the number of bytes consumed. -/
def varintLoop : List Nat → Nat → Nat → Option (Nat × Nat)
  | [], _, _ => none
  | b :: rest, shift, acc =>
    if 28 < shift then none
    else if b < 128 then some ((acc + b * 2 ^ shift) % 2 ^ 32, 1)
    else
      match varintLoop rest (shift + 7) (acc + (b - 128) * 2 ^ shift) with
      | none => none
      | some (v, used) => some (v, used + 1)

/-- Modelled from the spec: `GetVarint32Ptr(p, limit, value)`; decodes
within `[p, limit)` of `data` and returns the value and the new
position. -/
def getVarint32Ptr (data : List Nat) (p limit : Nat) : Option (Nat × Nat) :=
  match varintLoop (sliceBytes data p (limit - p)) 0 0 with
  | none => none
  | some (v, used) => some (v, p + used)

/-- Modelled from the spec: `GetVarint32(Slice*, uint32_t*)`; decodes a
varint32 from the front of a byte string and returns the value and the
remaining bytes. -/
def getVarint32 (s : List Nat) : Option (Nat × List Nat) :=
  match varintLoop s 0 0 with
  | none => none
  | some (v, used) => some (v, s.drop used)

/-- Modelled from the spec: `PutVarint32` / `EncodeVarint32`
(standard base-128 little-endian varint of a `uint32_t`). -/
def putVarint32 (v : Nat) : List Nat :=
  if v < 128 then [v]
  else if v < 16384 then [v % 128 + 128, v / 128]
  else if v < 2097152 then [v % 128 + 128, v / 128 % 128 + 128, v / 16384]
  else if v < 268435456 then
    [v % 128 + 128, v / 128 % 128 + 128, v / 16384 % 128 + 128, v / 2097152]
  else
    [v % 128 + 128, v / 128 % 128 + 128, v / 16384 % 128 + 128,
     v / 2097152 % 128 + 128, v / 268435456 % 256]

/-- Modelled from the spec: `DecodeFixed32` — little-endian 32-bit read. -/
def decodeFixed32 (data : List Nat) (off : Nat) : Nat :=
  byteAt data off + 256 * byteAt data (off + 1) + 65536 * byteAt data (off + 2) +
    16777216 * byteAt data (off + 3)

/-- Modelled from the spec: `DecodeFixed64` — little-endian 64-bit read. -/
def decodeFixed64 (data : List Nat) (off : Nat) : Nat :=
  byteAt data off + 256 * byteAt data (off + 1) + 256 ^ 2 * byteAt data (off + 2) +
    256 ^ 3 * byteAt data (off + 3) + 256 ^ 4 * byteAt data (off + 4) +
    256 ^ 5 * byteAt data (off + 5) + 256 ^ 6 * byteAt data (off + 6) +
    256 ^ 7 * byteAt data (off + 7)

/-- Modelled from the spec: `PutFixed64` — little-endian 64-bit write
(8 bytes, each masked to `0xff`). -/
def putFixed64 (v : Nat) : List Nat :=
  [v % 256, v / 256 % 256, v / 256 ^ 2 % 256, v / 256 ^ 3 % 256,
   v / 256 ^ 4 % 256, v / 256 ^ 5 % 256, v / 256 ^ 6 % 256, v / 256 ^ 7 % 256]

/-- The header decode of `DecodeEntry(p, limit, ...)` from
`table/block.cc`: the `(shared, non_shared, value_length)` triple of the
entry starting at offset `p` with exclusive region end `limit` — either
the one-byte-each fast path, or three varint32s — and the offset just
past the header (the key-delta position); `none` on varint failure. -/
def decodeEntryHdr (data : List Nat) (p limit : Nat) : Option (Nat × Nat × Nat × Nat) :=
  if byteAt data p ||| byteAt data (p + 1) ||| byteAt data (p + 2) < 128 then
    some (byteAt data p, byteAt data (p + 1), byteAt data (p + 2), p + 3)
  else
    match getVarint32Ptr data p limit with
    | none => none
    | some (sh, p1) =>
      match getVarint32Ptr data p1 limit with
      | none => none
      | some (ns, p2) =>
        match getVarint32Ptr data p2 limit with
        | none => none
        | some (vl, p3) => some (sh, ns, vl, p3)

/-- The remaining checks of `DecodeEntry`: at least 3 bytes before the
header, and at least `non_shared + value_length` bytes after it (the
latter compared in 32-bit arithmetic, as in the source). -/
def decodeEntry (data : List Nat) (p limit : Nat) : Option (Nat × Nat × Nat × Nat) :=
  if limit - p < 3 then none
  else
    match decodeEntryHdr data p limit with
    | none => none
    | some (sh, ns, vl, q) =>
      if (limit - q) % 2 ^ 32 < (ns + vl) % 2 ^ 32 then none
      else some (sh, ns, vl, q)

/-- `BlockMetrics` (fields of the C++ class; the `metrics_` bitmap is a
byte list). -/
structure BlockMetrics where
  file_number : Nat
  block_offset : Nat
  num_restarts : Nat
  bytes_per_restart : Nat
  metrics : List Nat
  deriving DecidableEq

/-- `BlockMetrics::Create(file_number, block_offset, db_value)`: parses
two leading varint32s and hands the remaining bytes to the
data-taking constructor.  Note the source performs no length check
here; the constructor only `assert`s `data.size() ==
num_restarts_ * bytes_per_restart_`. -/
def BlockMetrics.Create (file_number block_offset : Nat) (db_value : List Nat) :
    Option BlockMetrics :=
  match getVarint32 db_value with
  | none => none
  | some (n, rest1) =>
    match getVarint32 rest1 with
    | none => none
    | some (b, rest2) => some ⟨file_number, block_offset, n, b, rest2⟩

/-- `BlockMetrics::Create(db_key, db_value)`: requires a 16-byte key,
reads `file_number` and `block_offset` as fixed64s, then defers to the
value parser. -/
def BlockMetrics.CreateKV (db_key db_value : List Nat) : Option BlockMetrics :=
  if db_key.length ≠ 16 then none
  else BlockMetrics.Create (decodeFixed64 db_key 0) (decodeFixed64 db_key 8) db_value

/-- `BlockMetrics::GetDBKey`: the source writes `file_number_` and then
`bytes_per_restart_` (not `block_offset_`) as fixed64s. -/
def BlockMetrics.GetDBKey (m : BlockMetrics) : List Nat :=
  putFixed64 m.file_number ++ putFixed64 m.bytes_per_restart

/-- `BlockMetrics::GetDBValue`: varint32 `num_restarts_`, varint32
`bytes_per_restart_`, then `num_restarts_ * bytes_per_restart_`
bitmap bytes (the product in 32-bit arithmetic, as the fields are
`uint32_t`). -/
def BlockMetrics.GetDBValue (m : BlockMetrics) : List Nat :=
  putVarint32 m.num_restarts ++ putVarint32 m.bytes_per_restart ++
    m.metrics.take (m.num_restarts * m.bytes_per_restart % 2 ^ 32)

/-- The intra-window bit index `restart_offset % (bytes_per_restart_ * 8u)`
of `RecordAccess` / `IsHot` (the window size in 32-bit arithmetic). -/
def BlockMetrics.bitIdx (m : BlockMetrics) (restart_offset : Nat) : Nat :=
  restart_offset % (m.bytes_per_restart * 8 % 2 ^ 32)

/-- The bitmap byte index `restart_index * bytes_per_restart_ + bitIdx / 8`
of `RecordAccess` / `IsHot` (the product in 32-bit arithmetic). -/
def BlockMetrics.byteIdx (m : BlockMetrics) (restart_index restart_offset : Nat) : Nat :=
  restart_index * m.bytes_per_restart % 2 ^ 32 + m.bitIdx restart_offset / 8

/-- `BlockMetrics::RecordAccess`: OR the bit into the bitmap byte. -/
def BlockMetrics.RecordAccess (m : BlockMetrics) (restart_index restart_offset : Nat) :
    BlockMetrics :=
  let i := m.byteIdx restart_index restart_offset
  let newByte := m.metrics.getD i 0 ||| 1 <<< (m.bitIdx restart_offset % 8)
  { m with metrics := m.metrics.set i newByte }

/-- `BlockMetrics::IsHot`: test the bit. -/
def BlockMetrics.IsHot (m : BlockMetrics) (restart_index restart_offset : Nat) : Bool :=
  (m.metrics.getD (m.byteIdx restart_index restart_offset) 0 &&&
    1 <<< (m.bitIdx restart_offset % 8)) != 0

/-- The `restart_offset_` computation of the `Block` constructor:
`size_ - (1 + NumRestarts()) * sizeof(uint32_t)`, with the `1 + n` sum
in 32-bit arithmetic, the subtraction in 64-bit (`size_t`) arithmetic,
and the result stored in a `uint32_t`. -/
def restartOffsetCalc (bytes : List Nat) : Nat :=
  (bytes.length + 2 ^ 64 - (1 + decodeFixed32 bytes (bytes.length - 4)) % 2 ^ 32 * 4)
    % 2 ^ 64 % 2 ^ 32

/-- The `Block` constructor: returns the resulting `(size_, restart_offset_)`
pair.  `size_ := 0` is the error marker (buffer shorter than 4 bytes, or
the computed restart-array offset lies past `size_ - 4`, which also
catches arithmetic wraparound). -/
def blockOpen (bytes : List Nat) : Nat × Nat :=
  if bytes.length < 4 then (0, 0)
  else if restartOffsetCalc bytes > bytes.length - 4 then (0, restartOffsetCalc bytes)
  else (bytes.length, restartOffsetCalc bytes)

/-- The three possible results of `Block::NewIterator`: an error
iterator carrying a corruption status, the shared empty iterator
(permanently invalid, status ok), or a live block iterator built from
`(restart_offset_, num_restarts)`. -/
inductive IterKind where
  | errorIter : String → IterKind
  | emptyIter : IterKind
  | blockIter : Nat → Nat → IterKind
  deriving DecidableEq

/-- `Block::NewIterator`: error iterator if `size_ < 8`, empty iterator
if `NumRestarts() == 0`, otherwise a live iterator. -/
def newIterator (bytes : List Nat) : IterKind :=
  if (blockOpen bytes).1 < 8 then .errorIter "bad block contents"
  else if decodeFixed32 bytes ((blockOpen bytes).1 - 4) = 0 then .emptyIter
  else .blockIter (blockOpen bytes).2 (decodeFixed32 bytes ((blockOpen bytes).1 - 4))

/-! ### Codec round-trip lemmas -/

theorem varintLoop_cons_lt (b : Nat) (rest : List Nat) (shift acc : Nat)
    (hs : shift ≤ 28) (hb : b < 128) :
    varintLoop (b :: rest) shift acc = some ((acc + b * 2 ^ shift) % 2 ^ 32, 1) := by
  unfold varintLoop
  rw [if_neg (by omega), if_pos hb]

theorem varintLoop_cons_ge_some (b : Nat) (rest : List Nat) (shift acc v used : Nat)
    (hs : shift ≤ 28) (hb : 128 ≤ b)
    (h : varintLoop rest (shift + 7) (acc + (b - 128) * 2 ^ shift) = some (v, used)) :
    varintLoop (b :: rest) shift acc = some (v, used + 1) := by
  unfold varintLoop
  rw [if_neg (by omega), if_neg (by omega), h]

theorem varintLoop_putVarint32 (v : Nat) (h : v < 2 ^ 32) (rest : List Nat) :
    varintLoop (putVarint32 v ++ rest) 0 0 = some (v, (putVarint32 v).length) := by
  by_cases h1 : v < 128
  · rw [putVarint32, if_pos h1]
    simp only [List.cons_append, List.nil_append, List.length_cons, List.length_nil]
    rw [varintLoop_cons_lt _ _ _ _ (by omega) h1]
    congr 1
    congr 1
    omega
  · by_cases h2 : v < 16384
    · rw [putVarint32, if_neg h1, if_pos h2]
      simp only [List.cons_append, List.nil_append, List.length_cons, List.length_nil]
      have e1 : varintLoop (v / 128 :: rest) 7 (0 + (v % 128 + 128 - 128) * 2 ^ 0) =
          some ((0 + (v % 128 + 128 - 128) * 2 ^ 0 + v / 128 * 2 ^ 7) % 2 ^ 32, 1) :=
        varintLoop_cons_lt _ _ _ _ (by omega) (by omega)
      rw [varintLoop_cons_ge_some _ _ _ _ _ _ (by omega) (by omega) e1]
      congr 1
      congr 1
      omega
    · by_cases h3 : v < 2097152
      · rw [putVarint32, if_neg h1, if_neg h2, if_pos h3]
        simp only [List.cons_append, List.nil_append, List.length_cons, List.length_nil]
        have e1 : varintLoop (v / 16384 :: rest) 14
            (0 + (v % 128 + 128 - 128) * 2 ^ 0 + (v / 128 % 128 + 128 - 128) * 2 ^ 7) =
            some ((0 + (v % 128 + 128 - 128) * 2 ^ 0 + (v / 128 % 128 + 128 - 128) * 2 ^ 7 +
              v / 16384 * 2 ^ 14) % 2 ^ 32, 1) :=
          varintLoop_cons_lt _ _ _ _ (by omega) (by omega)
        have e2 := varintLoop_cons_ge_some _ _ _ _ _ _ (by omega) (by omega : 128 ≤ v / 128 % 128 + 128) e1
        rw [varintLoop_cons_ge_some _ _ _ _ _ _ (by omega) (by omega) e2]
        congr 1
        congr 1
        omega
      · by_cases h4 : v < 268435456
        · rw [putVarint32, if_neg h1, if_neg h2, if_neg h3, if_pos h4]
          simp only [List.cons_append, List.nil_append, List.length_cons, List.length_nil]
          have e1 : varintLoop (v / 2097152 :: rest) 21
              (0 + (v % 128 + 128 - 128) * 2 ^ 0 + (v / 128 % 128 + 128 - 128) * 2 ^ 7 +
                (v / 16384 % 128 + 128 - 128) * 2 ^ 14) =
              some ((0 + (v % 128 + 128 - 128) * 2 ^ 0 + (v / 128 % 128 + 128 - 128) * 2 ^ 7 +
                (v / 16384 % 128 + 128 - 128) * 2 ^ 14 + v / 2097152 * 2 ^ 21) % 2 ^ 32, 1) :=
            varintLoop_cons_lt _ _ _ _ (by omega) (by omega)
          have e2 := varintLoop_cons_ge_some _ _ _ _ _ _ (by omega)
            (by omega : 128 ≤ v / 16384 % 128 + 128) e1
          have e3 := varintLoop_cons_ge_some _ _ _ _ _ _ (by omega)
            (by omega : 128 ≤ v / 128 % 128 + 128) e2
          rw [varintLoop_cons_ge_some _ _ _ _ _ _ (by omega) (by omega) e3]
          congr 1
          congr 1
          omega
        · rw [putVarint32, if_neg h1, if_neg h2, if_neg h3, if_neg h4]
          simp only [List.cons_append, List.nil_append, List.length_cons, List.length_nil]
          have e1 : varintLoop (v / 268435456 % 256 :: rest) 28
              (0 + (v % 128 + 128 - 128) * 2 ^ 0 + (v / 128 % 128 + 128 - 128) * 2 ^ 7 +
                (v / 16384 % 128 + 128 - 128) * 2 ^ 14 + (v / 2097152 % 128 + 128 - 128) * 2 ^ 21) =
              some ((0 + (v % 128 + 128 - 128) * 2 ^ 0 + (v / 128 % 128 + 128 - 128) * 2 ^ 7 +
                (v / 16384 % 128 + 128 - 128) * 2 ^ 14 + (v / 2097152 % 128 + 128 - 128) * 2 ^ 21 +
                v / 268435456 % 256 * 2 ^ 28) % 2 ^ 32, 1) :=
            varintLoop_cons_lt _ _ _ _ (by omega) (by omega)
          have e2 := varintLoop_cons_ge_some _ _ _ _ _ _ (by omega)
            (by omega : 128 ≤ v / 2097152 % 128 + 128) e1
          have e3 := varintLoop_cons_ge_some _ _ _ _ _ _ (by omega)
            (by omega : 128 ≤ v / 16384 % 128 + 128) e2
          have e4 := varintLoop_cons_ge_some _ _ _ _ _ _ (by omega)
            (by omega : 128 ≤ v / 128 % 128 + 128) e3
          rw [varintLoop_cons_ge_some _ _ _ _ _ _ (by omega) (by omega) e4]
          congr 1
          congr 1
          omega

theorem getVarint32_append (v : Nat) (h : v < 2 ^ 32) (rest : List Nat) :
    getVarint32 (putVarint32 v ++ rest) = some (v, rest) := by
  unfold getVarint32
  rw [varintLoop_putVarint32 v h rest]
  simp [List.drop_left]

/-! ### BlockMetrics claims -/

theorem getD_set_self (l : List Nat) (i a : Nat) (h : i < l.length) :
    (l.set i a).getD i 0 = a := by
  rw [List.getD_eq_getElem?_getD, List.getElem?_set_self h]
  rfl

/-- The bitmap byte index stays below the bitmap size when
`restart_index < num_restarts` (shared bound for `RecordAccess`/`IsHot`). -/
theorem metricsByteIdx_lt (m : BlockMetrics) (r s : Nat)
    (hb : 1 ≤ m.bytes_per_restart) (hb2 : m.bytes_per_restart * 8 < 2 ^ 32)
    (hr : r < m.num_restarts) (hsz : m.num_restarts * m.bytes_per_restart < 2 ^ 32) :
    m.byteIdx r s < m.num_restarts * m.bytes_per_restart := by
  unfold BlockMetrics.byteIdx BlockMetrics.bitIdx
  rw [Nat.mod_eq_of_lt hb2]
  have hbit : s % (m.bytes_per_restart * 8) < m.bytes_per_restart * 8 :=
    Nat.mod_lt _ (by positivity)
  have hdiv : s % (m.bytes_per_restart * 8) / 8 < m.bytes_per_restart := by
    rw [Nat.div_lt_iff_lt_mul (by norm_num)]
    omega
  have hrb : r * m.bytes_per_restart < m.num_restarts * m.bytes_per_restart :=
    (Nat.mul_lt_mul_right hb).2 hr
  rw [Nat.mod_eq_of_lt (lt_trans hrb hsz)]
  have h1 : r * m.bytes_per_restart + m.bytes_per_restart ≤
      m.num_restarts * m.bytes_per_restart := by
    have : (r + 1) * m.bytes_per_restart ≤ m.num_restarts * m.bytes_per_restart :=
      Nat.mul_le_mul_right _ hr
    calc r * m.bytes_per_restart + m.bytes_per_restart
        = (r + 1) * m.bytes_per_restart := by ring
      _ ≤ m.num_restarts * m.bytes_per_restart := this
  omega

/-- Any value with the mask OR-ed in tests non-zero under that mask. -/
theorem lor_and_mask_ne_zero (x k : Nat) : (x ||| 1 <<< k) &&& 1 <<< k ≠ 0 := by
  intro h0
  have ht : ((x ||| 1 <<< k) &&& 1 <<< k).testBit k = true := by
    simp [Nat.testBit_and, Nat.testBit_or, Nat.one_shiftLeft, Nat.testBit_two_pow_self]
  rw [h0] at ht
  simp at ht

/-- C8: after `record_access(r, s)` the bit queried by `is_hot(r, s)` is set,
and `is_hot` only depends on `s` through `s mod (bytes_per_restart * 8)`. -/
theorem record_access_sets_hot (m : BlockMetrics) (r s : Nat)
    (hb : 1 ≤ m.bytes_per_restart) (hb2 : m.bytes_per_restart * 8 < 2 ^ 32)
    (hr : r < m.num_restarts) (hsz : m.num_restarts * m.bytes_per_restart < 2 ^ 32)
    (hlen : m.metrics.length = m.num_restarts * m.bytes_per_restart) :
    (m.RecordAccess r s).IsHot r s = true ∧
      m.IsHot r s = m.IsHot r (s % (m.bytes_per_restart * 8)) := by
  constructor
  · have hidx : m.byteIdx r s < m.metrics.length := by
      rw [hlen]
      exact metricsByteIdx_lt m r s hb hb2 hr hsz
    have hset : (m.RecordAccess r s).metrics.getD (m.byteIdx r s) 0 =
        m.metrics.getD (m.byteIdx r s) 0 ||| 1 <<< (m.bitIdx s % 8) := by
      unfold BlockMetrics.RecordAccess
      exact getD_set_self _ _ _ hidx
    have hfields : (m.RecordAccess r s).IsHot r s =
        (((m.RecordAccess r s).metrics.getD (m.byteIdx r s) 0 &&&
          1 <<< (m.bitIdx s % 8)) != 0) := rfl
    rw [hfields, hset, bne_iff_ne]
    exact lor_and_mask_ne_zero _ _
  · have h1 : m.bitIdx s = m.bitIdx (s % (m.bytes_per_restart * 8)) := by
      unfold BlockMetrics.bitIdx
      rw [Nat.mod_eq_of_lt hb2]
      exact (Nat.mod_mod_of_dvd s dvd_rfl).symm
    have h2 : m.byteIdx r s = m.byteIdx r (s % (m.bytes_per_restart * 8)) := by
      unfold BlockMetrics.byteIdx
      rw [h1]
    unfold BlockMetrics.IsHot
    rw [h1, h2]

/-- C8 witness: a concrete metrics instance with `bytes_per_restart = 2`;
offset 19 folds onto bit 3 of the 16-bit window. -/
theorem record_access_sets_hot_witness :
    1 ≤ (2 : Nat) ∧ (2 : Nat) * 8 < 2 ^ 32 ∧ (0 : Nat) < 1 ∧ (1 : Nat) * 2 < 2 ^ 32 ∧
    ([0, 0] : List Nat).length = 1 * 2 ∧
    ((⟨0, 0, 1, 2, [0, 0]⟩ : BlockMetrics).RecordAccess 0 19).IsHot 0 19 = true ∧
    (⟨0, 0, 1, 2, [0, 0]⟩ : BlockMetrics).IsHot 0 19 =
      (⟨0, 0, 1, 2, [0, 0]⟩ : BlockMetrics).IsHot 0 (19 % (2 * 8)) :=
  ⟨by decide, by decide, by decide, by decide, by decide,
   (record_access_sets_hot ⟨0, 0, 1, 2, [0, 0]⟩ 0 19 (by decide) (by decide) (by decide)
     (by decide) (by decide)).1,
   (record_access_sets_hot ⟨0, 0, 1, 2, [0, 0]⟩ 0 19 (by decide) (by decide) (by decide)
     (by decide) (by decide)).2⟩

/-- C10: with `1 ≤ bytes_per_restart` and `restart_index < num_restarts`,
the byte index used by `RecordAccess`/`IsHot` stays below the bitmap size
`num_restarts * bytes_per_restart`; and for every `restart_index ≥
num_restarts` (no bounds check in the source) the computed index reaches
or exceeds the bitmap size. -/
theorem metrics_access_in_bounds (m : BlockMetrics) (s : Nat)
    (hb : 1 ≤ m.bytes_per_restart) (hb2 : m.bytes_per_restart * 8 < 2 ^ 32)
    (hsz : m.num_restarts * m.bytes_per_restart < 2 ^ 32) :
    (∀ r1, r1 < m.num_restarts →
      m.byteIdx r1 s < m.num_restarts * m.bytes_per_restart) ∧
    (∀ r2, m.num_restarts ≤ r2 → r2 * m.bytes_per_restart < 2 ^ 32 →
      m.num_restarts * m.bytes_per_restart ≤ m.byteIdx r2 s) := by
  constructor
  · intro r1 hr
    exact metricsByteIdx_lt m r1 s hb hb2 hr hsz
  · intro r2 hge hlt
    unfold BlockMetrics.byteIdx
    rw [Nat.mod_eq_of_lt hlt]
    have h := Nat.mul_le_mul_right m.bytes_per_restart hge
    omega

/-- C10 witness. -/
theorem metrics_access_in_bounds_witness :
    1 ≤ (2 : Nat) ∧ (2 : Nat) * 8 < 2 ^ 32 ∧ (1 : Nat) * 2 < 2 ^ 32 ∧
    (∀ r1, r1 < (1 : Nat) →
      (⟨0, 0, 1, 2, [0, 0]⟩ : BlockMetrics).byteIdx r1 5 < 1 * 2) ∧
    (∀ r2, (1 : Nat) ≤ r2 → r2 * 2 < 2 ^ 32 →
      1 * 2 ≤ (⟨0, 0, 1, 2, [0, 0]⟩ : BlockMetrics).byteIdx r2 5) :=
  ⟨by decide, by decide, by decide,
   (metrics_access_in_bounds ⟨0, 0, 1, 2, [0, 0]⟩ 5 (by decide) (by decide) (by decide)).1,
   (metrics_access_in_bounds ⟨0, 0, 1, 2, [0, 0]⟩ 5 (by decide) (by decide) (by decide)).2⟩

/-- C3: `GetDBKey` writes `file_number` followed by `bytes_per_restart`
(not `block_offset`, which the claim and the parser `CreateKV` expect):
on a metrics with `block_offset = 7` and `bytes_per_restart = 2` the key
carries the fixed64 of 2, not of 7 (it is still 16 bytes long). -/
theorem getDBKey_emits_bytes_per_restart :
    BlockMetrics.GetDBKey ⟨0, 7, 1, 2, [0, 0]⟩ = putFixed64 0 ++ putFixed64 2 ∧
    BlockMetrics.GetDBKey ⟨0, 7, 1, 2, [0, 0]⟩ ≠ putFixed64 0 ++ putFixed64 7 ∧
    (BlockMetrics.GetDBKey ⟨0, 7, 1, 2, [0, 0]⟩).length = 16 := by decide

/-- C4: `Create` does not validate that the bytes remaining after the two
varint32s number `num_restarts * bytes_per_restart`: on the value
`[0x01, 0x02]` (num_restarts 1, bytes_per_restart 2, zero remaining
bytes) it returns a non-null metrics whose bitmap length 0 violates the
constructor's `assert(data.size() == num_restarts_*bytes_per_restart_)`. -/
theorem create_skips_length_check :
    BlockMetrics.Create 0 0 [1, 2] = some ⟨0, 0, 1, 2, []⟩ ∧
    ([] : List Nat).length ≠ (1 : Nat) * 2 := by decide

/-- C5: serializing a metrics instance and reparsing it through
`CreateKV` succeeds and restores the bitmap, `num_restarts` and
`bytes_per_restart` (the key's second field carries `bytes_per_restart`
in place of `block_offset`, which none of the compared fields read). -/
theorem metrics_roundtrip (m : BlockMetrics) (hn : m.num_restarts < 2 ^ 32)
    (hb : m.bytes_per_restart < 2 ^ 32)
    (hlen : m.metrics.length = m.num_restarts * m.bytes_per_restart)
    (hsz : m.num_restarts * m.bytes_per_restart < 2 ^ 32) :
    ∃ mm, BlockMetrics.CreateKV m.GetDBKey m.GetDBValue = some mm ∧
      mm.metrics = m.metrics ∧ mm.num_restarts = m.num_restarts ∧
      mm.bytes_per_restart = m.bytes_per_restart := by
  have hk : m.GetDBKey.length = 16 := by
    simp [BlockMetrics.GetDBKey, putFixed64]
  have htake : m.metrics.take (m.num_restarts * m.bytes_per_restart % 2 ^ 32) =
      m.metrics := by
    rw [Nat.mod_eq_of_lt hsz, ← hlen, List.take_length]
  unfold BlockMetrics.CreateKV
  rw [if_neg (by omega)]
  unfold BlockMetrics.Create BlockMetrics.GetDBValue
  rw [htake, List.append_assoc, getVarint32_append _ hn]
  dsimp only
  rw [getVarint32_append _ hb]
  exact ⟨_, rfl, rfl, rfl, rfl⟩

/-- C5 witness. -/
theorem metrics_roundtrip_witness :
    (1 : Nat) < 2 ^ 32 ∧ (2 : Nat) < 2 ^ 32 ∧
    ([3, 4] : List Nat).length = 1 * 2 ∧ (1 : Nat) * 2 < 2 ^ 32 ∧
    ∃ mm, BlockMetrics.CreateKV (BlockMetrics.GetDBKey ⟨1, 5, 1, 2, [3, 4]⟩)
        (BlockMetrics.GetDBValue ⟨1, 5, 1, 2, [3, 4]⟩) = some mm ∧
      mm.metrics = [3, 4] ∧ mm.num_restarts = 1 ∧ mm.bytes_per_restart = 2 :=
  ⟨by decide, by decide, by decide, by decide,
   metrics_roundtrip ⟨1, 5, 1, 2, [3, 4]⟩ (by decide) (by decide) (by decide) (by decide)⟩

/-- C9: `NewIterator` returns the corruption error iterator exactly when
the open-time checks fail (final `size_ < 8`, i.e. the buffer is shorter
than 8 bytes or the — possibly wrapped-around — restart-array offset
lies past `size - 4`); the ok-status empty iterator exactly when the
checks pass and `num_restarts = 0`; and otherwise a live block iterator
built from `(restart_offset_, num_restarts)`. -/
theorem new_iterator_cases (bytes : List Nat) (hL : bytes.length < 2 ^ 64) :
    (newIterator bytes = .errorIter "bad block contents" ↔
      (bytes.length < 8 ∨ bytes.length - 4 < restartOffsetCalc bytes)) ∧
    (newIterator bytes = .emptyIter ↔
      (8 ≤ bytes.length ∧ restartOffsetCalc bytes ≤ bytes.length - 4 ∧
        decodeFixed32 bytes (bytes.length - 4) = 0)) ∧
    ((8 ≤ bytes.length ∧ restartOffsetCalc bytes ≤ bytes.length - 4 ∧
        decodeFixed32 bytes (bytes.length - 4) ≠ 0) →
      newIterator bytes = .blockIter (restartOffsetCalc bytes)
        (decodeFixed32 bytes (bytes.length - 4))) := by
  by_cases h4 : bytes.length < 4
  · have hbo : blockOpen bytes = (0, 0) := by
      rw [blockOpen, if_pos h4]
    have hni : newIterator bytes = .errorIter "bad block contents" := by
      rw [newIterator, hbo]
      norm_num
    refine ⟨⟨fun _ => Or.inl (by omega), fun _ => hni⟩, ⟨fun h => ?_, fun h => ?_⟩, fun h => ?_⟩
    · rw [hni] at h
      simp at h
    · omega
    · omega
  · by_cases hro : restartOffsetCalc bytes > bytes.length - 4
    · have hbo : blockOpen bytes = (0, restartOffsetCalc bytes) := by
        rw [blockOpen, if_neg h4, if_pos hro]
      have hni : newIterator bytes = .errorIter "bad block contents" := by
        rw [newIterator, hbo]
        norm_num
      refine ⟨⟨fun _ => Or.inr hro, fun _ => hni⟩, ⟨fun h => ?_, fun h => ?_⟩, fun h => ?_⟩
      · rw [hni] at h
        simp at h
      · omega
      · omega
    · have hbo : blockOpen bytes = (bytes.length, restartOffsetCalc bytes) := by
        rw [blockOpen, if_neg h4, if_neg hro]
      by_cases h8 : bytes.length < 8
      · have hni : newIterator bytes = .errorIter "bad block contents" := by
          rw [newIterator, hbo]
          simp [h8]
        refine ⟨⟨fun _ => Or.inl h8, fun _ => hni⟩, ⟨fun h => ?_, fun h => ?_⟩, fun h => ?_⟩
        · rw [hni] at h
          simp at h
        · omega
        · omega
      · by_cases hn : decodeFixed32 bytes (bytes.length - 4) = 0
        · have hni : newIterator bytes = .emptyIter := by
            rw [newIterator, hbo]
            simp [h8, hn]
          refine ⟨⟨fun h => ?_, fun h => ?_⟩, ⟨fun _ => ⟨by omega, by omega, hn⟩, fun _ => hni⟩,
            fun h => ?_⟩
          · rw [hni] at h
            simp at h
          · omega
          · exact absurd hn h.2.2
        · have hni : newIterator bytes = .blockIter (restartOffsetCalc bytes)
              (decodeFixed32 bytes (bytes.length - 4)) := by
            rw [newIterator, hbo]
            simp [h8, hn]
          refine ⟨⟨fun h => ?_, fun h => ?_⟩, ⟨fun h => ?_, fun h => ?_⟩, fun _ => hni⟩
          · rw [hni] at h
            simp at h
          · omega
          · rw [hni] at h
            simp at h
          · exact absurd h.2.2 hn

/-- C9 witness: the 8-byte all-zero buffer opens cleanly with
`num_restarts = 0` and yields the empty iterator. -/
theorem new_iterator_cases_witness :
    ([0, 0, 0, 0, 0, 0, 0, 0] : List Nat).length < 2 ^ 64 ∧
    (newIterator [0, 0, 0, 0, 0, 0, 0, 0] = .emptyIter ↔
      (8 ≤ ([0, 0, 0, 0, 0, 0, 0, 0] : List Nat).length ∧
        restartOffsetCalc [0, 0, 0, 0, 0, 0, 0, 0] ≤
          ([0, 0, 0, 0, 0, 0, 0, 0] : List Nat).length - 4 ∧
        decodeFixed32 [0, 0, 0, 0, 0, 0, 0, 0]
          (([0, 0, 0, 0, 0, 0, 0, 0] : List Nat).length - 4) = 0)) :=
  ⟨by decide, (new_iterator_cases [0, 0, 0, 0, 0, 0, 0, 0] (by decide)).2.1⟩

/-! ### The block iterator (`Block::Iter`) -/

/-- The immutable environment of a `Block::Iter`: the block bytes, the
restart-array offset (`restarts_`) and the number of restarts. -/
structure BlockEnv where
  data : List Nat
  restarts : Nat
  numRestarts : Nat
  deriving DecidableEq

/-- The mutable state of a `Block::Iter`.  `value_` is a slice into the
block, kept as offset + length so that `NextEntryOffset` (pointer
arithmetic in the source) is `valueOff + valueLen`. -/
structure IterState where
  current : Nat
  restartIndex : Nat
  restartOffset : Nat
  key : List Nat
  valueOff : Nat
  valueLen : Nat
  status : St
  deriving DecidableEq

/-- `GetRestartPoint(index)`: fixed32 at `restarts_ + index * 4`. -/
def getRestartPoint (B : BlockEnv) (index : Nat) : Nat :=
  decodeFixed32 B.data (B.restarts + index * 4)

/-- `NextEntryOffset()`: offset just past the current value. -/
def nextEntryOffset (st : IterState) : Nat := st.valueOff + st.valueLen

/-- `Valid()`: `current_ < restarts_`. -/
def valid (B : BlockEnv) (st : IterState) : Bool := st.current < B.restarts

/-- The repeated "no more entries" triple assignment of the source
(`current_ = restarts_; restart_index_ = num_restarts_; restart_offset_ = 0`). -/
def markInvalid (B : BlockEnv) (st : IterState) : IterState :=
  { st with current := B.restarts, restartIndex := B.numRestarts, restartOffset := 0 }

/-- `CorruptionError()`: park past the end, clear key and value, set the
sticky corruption status. -/
def corruptionError (B : BlockEnv) : IterState :=
  { current := B.restarts
    restartIndex := B.numRestarts
    restartOffset := 0
    key := []
    valueOff := 0
    valueLen := 0
    status := St.corruption "bad entry in block" }

/-- The restart-index fixup loop at the end of `ParseNextKey`:
`while (restart_index_ + 1 < num_restarts_ && GetRestartPoint(restart_index_ + 1) < current_)`.
Each iteration increments `restart_index_` and resets `restart_offset_`
to 0; at most `numRestarts` iterations can ever run (the index is
bounded by `numRestarts`), so the fuel used at the call site is exact. -/
def fixupLoop (B : BlockEnv) (current : Nat) : Nat → Nat → Nat → Nat × Nat
  | 0, ri, ro => (ri, ro)
  | fuel + 1, ri, ro =>
    if ri + 1 < B.numRestarts ∧ getRestartPoint B (ri + 1) < current then
      fixupLoop B current fuel (ri + 1) 0
    else (ri, ro)

/-- `ParseNextKey()`: advance to the entry starting at the end of the
current value; returns the source's `bool` along with the new state. -/
def parseNextKey (B : BlockEnv) (st : IterState) : Bool × IterState :=
  if B.restarts ≤ nextEntryOffset st then
    (false, markInvalid B st)
  else
    match decodeEntry B.data (nextEntryOffset st) B.restarts with
    | none => (false, corruptionError B)
    | some (sh, ns, vl, q) =>
      if st.key.length < sh then (false, corruptionError B)
      else
        (true, { current := nextEntryOffset st
                 restartIndex := (fixupLoop B (nextEntryOffset st) B.numRestarts
                   st.restartIndex ((st.restartOffset + 1) % 2 ^ 32)).1
                 restartOffset := (fixupLoop B (nextEntryOffset st) B.numRestarts
                   st.restartIndex ((st.restartOffset + 1) % 2 ^ 32)).2
                 key := st.key.take sh ++ sliceBytes B.data q ns
                 valueOff := q + ns
                 valueLen := vl
                 status := st.status })

/-- `SeekToRestartPoint(index)`: clear the key, park `restart_offset_`
at `uint32_t(-1)` (the next `ParseNextKey` wraps it to 0), and aim the
empty value slice at the restart offset.  `current_` is left to be
fixed by the next `ParseNextKey`. -/
def seekToRestartPoint (B : BlockEnv) (index : Nat) (st : IterState) : IterState :=
  { st with
    key := []
    restartIndex := index
    restartOffset := 2 ^ 32 - 1
    valueOff := getRestartPoint B index
    valueLen := 0 }

/-- `SeekToFirst()`. -/
def seekToFirst (B : BlockEnv) (st : IterState) : IterState :=
  (parseNextKey B (seekToRestartPoint B 0 st)).2

/-- The skip loop of `SeekToLast()`:
`while (ParseNextKey() && NextEntryOffset() < restarts_)`.  Every
successful parse strictly advances `NextEntryOffset`, so `restarts_ + 1`
units of fuel always suffice. -/
def skipToEndAux (B : BlockEnv) : Nat → IterState → IterState
  | 0, st => st
  | fuel + 1, st =>
    if (parseNextKey B st).1 = true ∧ nextEntryOffset (parseNextKey B st).2 < B.restarts then
      skipToEndAux B fuel (parseNextKey B st).2
    else (parseNextKey B st).2

/-- `SeekToLast()`. -/
def seekToLast (B : BlockEnv) (st : IterState) : IterState :=
  skipToEndAux B (B.restarts + 1) (seekToRestartPoint B (B.numRestarts - 1) st)

/-- `Next()` (its `assert(Valid())` is a debug precondition; sequences
of operations only invoke it on valid iterators). -/
def next (B : BlockEnv) (st : IterState) : IterState := (parseNextKey B st).2

/-- The backward scan at the head of `Prev()`:
`while (GetRestartPoint(restart_index_) >= original)`, decrementing
`restart_index_`; `none` models the `restart_index_ == 0` early return
(no more entries). -/
def prevScanBack (B : BlockEnv) (original : Nat) : Nat → Option Nat
  | 0 => if original ≤ getRestartPoint B 0 then none else some 0
  | ri + 1 =>
    if original ≤ getRestartPoint B (ri + 1) then prevScanBack B original ri
    else some (ri + 1)

/-- The forward re-parse loop of `Prev()`:
`do { } while (ParseNextKey() && NextEntryOffset() < original)`; as in
`skipToEndAux`, `restarts_ + 1` units of fuel always suffice. -/
def prevLoopAux (B : BlockEnv) (original : Nat) : Nat → IterState → IterState
  | 0, st => st
  | fuel + 1, st =>
    if (parseNextKey B st).1 = true ∧ nextEntryOffset (parseNextKey B st).2 < original then
      prevLoopAux B original fuel (parseNextKey B st).2
    else (parseNextKey B st).2

/-- `Prev()`. -/
def prev (B : BlockEnv) (st : IterState) : IterState :=
  match prevScanBack B st.current st.restartIndex with
  | none => markInvalid B st
  | some ri => prevLoopAux B st.current (B.restarts + 1) (seekToRestartPoint B ri st)

/-- The binary search of `Seek(target)` over the restart array;
`none` models the `CorruptionError(); return;` paths (decode failure or
a non-zero `shared` at a restart point).  The interval shrinks every
iteration, so `numRestarts` units of fuel always suffice. -/
def seekBinAux (B : BlockEnv) (cmp : List Nat → List Nat → Int) (target : List Nat) :
    Nat → Nat → Nat → Option Nat
  | 0, left, _ => some left
  | fuel + 1, left, right =>
    if left < right then
      match decodeEntry B.data (getRestartPoint B ((left + right + 1) / 2)) B.restarts with
      | none => none
      | some (sh, ns, _, q) =>
        if sh ≠ 0 then none
        else if cmp (sliceBytes B.data q ns) target < 0 then
          seekBinAux B cmp target fuel ((left + right + 1) / 2) right
        else seekBinAux B cmp target fuel left ((left + right + 1) / 2 - 1)
    else some left

/-- The linear scan at the tail of `Seek(target)`: parse until the key
is `≥ target` or the entries run out. -/
def seekScanAux (B : BlockEnv) (cmp : List Nat → List Nat → Int) (target : List Nat) :
    Nat → IterState → IterState
  | 0, st => st
  | fuel + 1, st =>
    if (parseNextKey B st).1 = false then (parseNextKey B st).2
    else if 0 ≤ cmp (parseNextKey B st).2.key target then (parseNextKey B st).2
    else seekScanAux B cmp target fuel (parseNextKey B st).2

/-- `Seek(target)`. -/
def seek (B : BlockEnv) (cmp : List Nat → List Nat → Int) (target : List Nat)
    (st : IterState) : IterState :=
  match seekBinAux B cmp target B.numRestarts 0 (B.numRestarts - 1) with
  | none => corruptionError B
  | some left => seekScanAux B cmp target (B.restarts + 1) (seekToRestartPoint B left st)

/-- The freshly constructed iterator (`Block::Iter::Iter`): parked past
the end, empty key, default (empty) value slice, status ok. -/
def initIter (B : BlockEnv) : IterState :=
  { current := B.restarts
    restartIndex := B.numRestarts
    restartOffset := 0
    key := []
    valueOff := 0
    valueLen := 0
    status := St.ok }

/-- Modelled from the spec: the comparator is an external collaborator
(a pure total order over byte strings); this is the default bytewise
(lexicographic) comparator, used by concrete witnesses. -/
def bytewiseCompare : List Nat → List Nat → Int
  | [], [] => 0
  | [], _ :: _ => -1
  | _ :: _, [] => 1
  | a :: as, b :: bs =>
    if a < b then -1 else if b < a then 1 else bytewiseCompare as bs

/-- A positioning operation of the public iterator interface. -/
inductive Op where
  | toFirst : Op
  | toLast : Op
  | doSeek : List Nat → Op
  | doNext : Op
  | doPrev : Op

/-- Apply one positioning operation. -/
def applyOp (B : BlockEnv) (cmp : List Nat → List Nat → Int) : Op → IterState → IterState
  | Op.toFirst, st => seekToFirst B st
  | Op.toLast, st => seekToLast B st
  | Op.doSeek t, st => seek B cmp t st
  | Op.doNext, st => next B st
  | Op.doPrev, st => prev B st

/-- Apply a sequence of positioning operations. -/
def applyOps (B : BlockEnv) (cmp : List Nat → List Nat → Int) : List Op → IterState → IterState
  | [], st => st
  | op :: ops, st => applyOps B cmp ops (applyOp B cmp op st)

/-- States reachable from the fresh iterator by positioning operations,
with `next`/`prev` only invoked on valid states (their `assert(Valid())`
precondition). -/
inductive Reach (B : BlockEnv) (cmp : List Nat → List Nat → Int) : IterState → Prop where
  | init : Reach B cmp (initIter B)
  | toFirst {st} : Reach B cmp st → Reach B cmp (seekToFirst B st)
  | toLast {st} : Reach B cmp st → Reach B cmp (seekToLast B st)
  | doSeek {st} (t : List Nat) : Reach B cmp st → Reach B cmp (seek B cmp t st)
  | doNext {st} : Reach B cmp st → valid B st = true → Reach B cmp (next B st)
  | doPrev {st} : Reach B cmp st → valid B st = true → Reach B cmp (prev B st)

/-! ### Ground-truth description of a well-formed block -/

/-- The decoded layout of one entry: its start offset, header values,
and `hp`, the offset of the key delta (just past the header). -/
structure Entry where
  off : Nat
  shared : Nat
  nonShared : Nat
  valueLen : Nat
  hp : Nat
  deriving DecidableEq

/-- Default entry (only read out of range). -/
def dEntry : Entry := ⟨0, 0, 0, 0, 0⟩

/-- `E[i]`, defaulting out of range. -/
def eAt (E : List Entry) (i : Nat) : Entry := E.getD i dEntry

/-- Offset just past an entry (key delta, then value bytes). -/
def entryEnd (e : Entry) : Nat := e.hp + e.nonShared + e.valueLen

/-- Reconstruct an entry's key from the previous key:
`prev[0..shared) ∥ delta`. -/
def buildKey (data : List Nat) (prevKey : List Nat) (e : Entry) : List Nat :=
  prevKey.take e.shared ++ sliceBytes data e.hp e.nonShared

/-- The keys of a run of entries, threading the reconstruction. -/
def keyList (data : List Nat) : List Nat → List Entry → List (List Nat)
  | _, [] => []
  | prevKey, e :: es => buildKey data prevKey e :: keyList data (buildKey data prevKey e) es

/-- The key of entry `i` (reconstruction from the start of the block). -/
def keyIdx (data : List Nat) (E : List Entry) (i : Nat) : List Nat :=
  (keyList data [] E).getD i []

/-- The value bytes of entry `i`. -/
def valIdx (data : List Nat) (E : List Entry) (i : Nat) : List Nat :=
  sliceBytes data ((eAt E i).hp + (eAt E i).nonShared) (eAt E i).valueLen

/-- Well-formedness of a block (§3 of the spec), relative to its entry
layout `E` and its restart table `R` (`R[j]` is the index of the entry
at which restart region `j` starts):
the restart array fits the buffer; sizes are 32-bit; there is at least
one entry and one restart; entry 0 starts at offset 0; every entry
header decodes to its layout values; entries tile `[0, restarts_)`;
each `shared` is bounded by the previous key's length; the restart
array lists strictly increasing entry indices starting at entry 0,
stores exactly their offsets, and restart entries have `shared = 0`. -/
def WFB (B : BlockEnv) (E : List Entry) (R : List Nat) : Prop :=
  1 ≤ B.numRestarts ∧
  B.restarts + 4 * B.numRestarts ≤ B.data.length ∧
  B.data.length < 2 ^ 32 ∧
  0 < E.length ∧
  (eAt E 0).off = 0 ∧
  (∀ i, i < E.length → decodeEntry B.data (eAt E i).off B.restarts =
    some ((eAt E i).shared, (eAt E i).nonShared, (eAt E i).valueLen, (eAt E i).hp)) ∧
  (∀ i, i + 1 < E.length → (eAt E (i + 1)).off = entryEnd (eAt E i)) ∧
  entryEnd (eAt E (E.length - 1)) = B.restarts ∧
  (∀ i, i + 1 < E.length → (eAt E (i + 1)).shared ≤ (keyIdx B.data E i).length) ∧
  R.length = B.numRestarts ∧
  R.getD 0 0 = 0 ∧
  (∀ j, j + 1 < R.length → R.getD j 0 < R.getD (j + 1) 0) ∧
  (∀ j, j < R.length → R.getD j 0 < E.length) ∧
  (∀ j, j < R.length → getRestartPoint B j = (eAt E (R.getD j 0)).off) ∧
  (∀ j, j < R.length → (eAt E (R.getD j 0)).shared = 0)

/-! ### Structural consequences of well-formedness -/

theorem varintLoop_used_bounds (l : List Nat) :
    ∀ s a v u, varintLoop l s a = some (v, u) → 1 ≤ u ∧ u ≤ l.length := by
  induction l with
  | nil =>
    intro s a v u h
    simp [varintLoop] at h
  | cons b rest ih =>
    intro s a v u h
    unfold varintLoop at h
    split at h
    · simp at h
    · split at h
      · simp at h
        simp [List.length_cons]
        omega
      · cases hm : varintLoop rest (s + 7) (a + (b - 128) * 2 ^ s) with
        | none =>
          rw [hm] at h
          simp at h
        | some p =>
          rw [hm] at h
          obtain ⟨v2, u2⟩ := p
          simp at h
          have := ih (s + 7) (a + (b - 128) * 2 ^ s) v2 u2 hm
          simp [List.length_cons]
          omega

theorem getVarint32Ptr_bounds (data : List Nat) (p limit v p2 : Nat)
    (h : getVarint32Ptr data p limit = some (v, p2)) : p + 1 ≤ p2 ∧ p2 ≤ limit := by
  unfold getVarint32Ptr at h
  cases hm : varintLoop (sliceBytes data p (limit - p)) 0 0 with
  | none =>
    rw [hm] at h
    simp at h
  | some q =>
    rw [hm] at h
    obtain ⟨v2, u2⟩ := q
    simp at h
    obtain ⟨hv, hu⟩ := h
    have hb := varintLoop_used_bounds _ 0 0 v2 u2 hm
    obtain ⟨hb1, hb2⟩ := hb
    have hlen : (sliceBytes data p (limit - p)).length ≤ limit - p := by
      unfold sliceBytes
      rw [List.length_take]
      exact Nat.min_le_left _ _
    omega

theorem decodeEntryHdr_bounds (data : List Nat) (p limit sh ns vl q : Nat)
    (h : decodeEntryHdr data p limit = some (sh, ns, vl, q)) : p + 3 ≤ q := by
  unfold decodeEntryHdr at h
  split at h
  · simp at h
    omega
  · cases g1 : getVarint32Ptr data p limit with
    | none =>
      rw [g1] at h
      simp at h
    | some t1 =>
      rw [g1] at h
      dsimp only at h
      obtain ⟨a1, b1⟩ := t1
      cases g2 : getVarint32Ptr data b1 limit with
      | none =>
        rw [g2] at h
        simp at h
      | some t2 =>
        rw [g2] at h
        dsimp only at h
        obtain ⟨a2, b2⟩ := t2
        cases g3 : getVarint32Ptr data b2 limit with
        | none =>
          rw [g3] at h
          simp at h
        | some t3 =>
          rw [g3] at h
          dsimp only at h
          obtain ⟨a3, b3⟩ := t3
          simp at h
          obtain ⟨h1, h2, h3, h4⟩ := h
          subst h4
          have k1 := getVarint32Ptr_bounds data p limit a1 b1 g1
          have k2 := getVarint32Ptr_bounds data b1 limit a2 b2 g2
          have k3 := getVarint32Ptr_bounds data b2 limit a3 b3 g3
          omega

theorem decodeEntryHdr_le_limit (data : List Nat) (p limit sh ns vl q : Nat)
    (h3 : 3 ≤ limit - p)
    (h : decodeEntryHdr data p limit = some (sh, ns, vl, q)) : q ≤ limit := by
  unfold decodeEntryHdr at h
  split at h
  · simp at h
    omega
  · cases g1 : getVarint32Ptr data p limit with
    | none =>
      rw [g1] at h
      simp at h
    | some t1 =>
      rw [g1] at h
      dsimp only at h
      obtain ⟨a1, b1⟩ := t1
      cases g2 : getVarint32Ptr data b1 limit with
      | none =>
        rw [g2] at h
        simp at h
      | some t2 =>
        rw [g2] at h
        dsimp only at h
        obtain ⟨a2, b2⟩ := t2
        cases g3 : getVarint32Ptr data b2 limit with
        | none =>
          rw [g3] at h
          simp at h
        | some t3 =>
          rw [g3] at h
          dsimp only at h
          obtain ⟨a3, b3⟩ := t3
          simp at h
          obtain ⟨h1, h2, h3x, h4⟩ := h
          subst h4
          have k3 := getVarint32Ptr_bounds data b2 limit a3 b3 g3
          omega

theorem decodeEntry_bounds (data : List Nat) (p limit sh ns vl q : Nat)
    (h : decodeEntry data p limit = some (sh, ns, vl, q)) : p + 3 ≤ q ∧ q ≤ limit := by
  unfold decodeEntry at h
  split at h
  · simp at h
  · rename_i h3
    cases g : decodeEntryHdr data p limit with
    | none =>
      rw [g] at h
      simp at h
    | some t =>
      rw [g] at h
      dsimp only at h
      obtain ⟨a, b, c, d⟩ := t
      split at h
      · simp at h
      · simp at h
        obtain ⟨h1, h2, hx, h4⟩ := h
        subst h1
        subst h2
        subst hx
        subst h4
        exact ⟨decodeEntryHdr_bounds data p limit _ _ _ _ g,
          decodeEntryHdr_le_limit data p limit _ _ _ _ (by omega) g⟩

theorem wfb_numRestarts {B E R} (hwf : WFB B E R) : 1 ≤ B.numRestarts := hwf.1

theorem wfb_size {B E R} (hwf : WFB B E R) :
    B.restarts + 4 * B.numRestarts ≤ B.data.length := hwf.2.1

theorem wfb_dataLt {B E R} (hwf : WFB B E R) : B.data.length < 2 ^ 32 := hwf.2.2.1

theorem wfb_len {B E R} (hwf : WFB B E R) : 0 < E.length := hwf.2.2.2.1

theorem wfb_off0 {B E R} (hwf : WFB B E R) : (eAt E 0).off = 0 := hwf.2.2.2.2.1

theorem wfb_dec {B E R} (hwf : WFB B E R) :
    ∀ i, i < E.length → decodeEntry B.data (eAt E i).off B.restarts =
      some ((eAt E i).shared, (eAt E i).nonShared, (eAt E i).valueLen, (eAt E i).hp) :=
  hwf.2.2.2.2.2.1

theorem wfb_chain {B E R} (hwf : WFB B E R) :
    ∀ i, i + 1 < E.length → (eAt E (i + 1)).off = entryEnd (eAt E i) :=
  hwf.2.2.2.2.2.2.1

theorem wfb_last {B E R} (hwf : WFB B E R) :
    entryEnd (eAt E (E.length - 1)) = B.restarts := hwf.2.2.2.2.2.2.2.1

theorem wfb_shared {B E R} (hwf : WFB B E R) :
    ∀ i, i + 1 < E.length → (eAt E (i + 1)).shared ≤ (keyIdx B.data E i).length :=
  hwf.2.2.2.2.2.2.2.2.1

theorem wfb_Rlen {B E R} (hwf : WFB B E R) : R.length = B.numRestarts :=
  hwf.2.2.2.2.2.2.2.2.2.1

theorem wfb_R0 {B E R} (hwf : WFB B E R) : R.getD 0 0 = 0 :=
  hwf.2.2.2.2.2.2.2.2.2.2.1

theorem wfb_Rmono {B E R} (hwf : WFB B E R) :
    ∀ j, j + 1 < R.length → R.getD j 0 < R.getD (j + 1) 0 :=
  hwf.2.2.2.2.2.2.2.2.2.2.2.1

theorem wfb_Rbound {B E R} (hwf : WFB B E R) :
    ∀ j, j < R.length → R.getD j 0 < E.length :=
  hwf.2.2.2.2.2.2.2.2.2.2.2.2.1

theorem wfb_Roff {B E R} (hwf : WFB B E R) :
    ∀ j, j < R.length → getRestartPoint B j = (eAt E (R.getD j 0)).off :=
  hwf.2.2.2.2.2.2.2.2.2.2.2.2.2.1

theorem wfb_Rsh {B E R} (hwf : WFB B E R) :
    ∀ j, j < R.length → (eAt E (R.getD j 0)).shared = 0 :=
  hwf.2.2.2.2.2.2.2.2.2.2.2.2.2.2

theorem entry_gap {B E R} (hwf : WFB B E R) (i : Nat) (hi : i < E.length) :
    (eAt E i).off + 3 ≤ (eAt E i).hp ∧ (eAt E i).hp ≤ B.restarts :=
  decodeEntry_bounds _ _ _ _ _ _ _ (wfb_dec hwf i hi)

theorem off_succ {B E R} (hwf : WFB B E R) (i : Nat) (hi : i + 1 < E.length) :
    (eAt E i).off + 3 ≤ (eAt E (i + 1)).off := by
  rw [wfb_chain hwf i hi]
  have h := entry_gap hwf i (by omega)
  unfold entryEnd
  omega

theorem off_mono {B E R} (hwf : WFB B E R) :
    ∀ i j, i < j → j < E.length → (eAt E i).off + 3 ≤ (eAt E j).off := by
  intro i j hij hj
  induction j with
  | zero => omega
  | succ j ih =>
    by_cases hij2 : i = j
    · subst hij2
      exact off_succ hwf i hj
    · have h1 := ih (by omega) (by omega)
      have h2 := off_succ hwf j hj
      omega

theorem end_le_restarts {B E R} (hwf : WFB B E R) :
    ∀ i, i < E.length → entryEnd (eAt E i) ≤ B.restarts := by
  intro i hi
  rcases Nat.lt_or_ge i (E.length - 1) with hlt | hge
  · rw [← wfb_chain hwf i (by omega)]
    have hgap := entry_gap hwf (E.length - 1) (by omega)
    have hlast := wfb_last hwf
    have hend : (eAt E (E.length - 1)).off + 3 ≤ entryEnd (eAt E (E.length - 1)) := by
      unfold entryEnd
      omega
    by_cases h2 : i + 1 = E.length - 1
    · rw [h2]
      omega
    · have := off_mono hwf (i + 1) (E.length - 1) (by omega) (by omega)
      omega
  · have h2 : i = E.length - 1 := by
      have := wfb_len hwf
      omega
    rw [h2, wfb_last hwf]

theorem off_lt_restarts {B E R} (hwf : WFB B E R) (i : Nat) (hi : i < E.length) :
    (eAt E i).off < B.restarts := by
  have h1 := entry_gap hwf i hi
  have h2 := end_le_restarts hwf i hi
  unfold entryEnd at h2
  omega

theorem off_ge_idx {B E R} (hwf : WFB B E R) :
    ∀ i, i < E.length → i ≤ (eAt E i).off := by
  intro i
  induction i with
  | zero =>
    intro _
    omega
  | succ i ih =>
    intro hi
    have h1 := ih (by omega)
    have h2 := off_succ hwf i hi
    omega

theorem len_le_restarts {B E R} (hwf : WFB B E R) : E.length ≤ B.restarts := by
  have h0 := wfb_len hwf
  have h1 := off_ge_idx hwf (E.length - 1) (by omega)
  have h2 := off_lt_restarts hwf (E.length - 1) (by omega)
  omega

theorem R_mono_general {B E R} (hwf : WFB B E R) :
    ∀ j k, j < k → k < R.length → R.getD j 0 < R.getD k 0 := by
  intro j k hjk hk
  induction k with
  | zero => omega
  | succ k ih =>
    by_cases hjk2 : j = k
    · subst hjk2
      exact wfb_Rmono hwf j hk
    · have h1 := ih (by omega) (by omega)
      have h2 := wfb_Rmono hwf k hk
      omega

theorem rp_strictMono {B E R} (hwf : WFB B E R) (j k : Nat) (hjk : j < k)
    (hk : k < B.numRestarts) : getRestartPoint B j < getRestartPoint B k := by
  have hRlen := wfb_Rlen hwf
  rw [wfb_Roff hwf j (by omega), wfb_Roff hwf k (by omega)]
  have h1 := R_mono_general hwf j k hjk (by omega)
  have h2 := wfb_Rbound hwf k (by omega)
  have := off_mono hwf (R.getD j 0) (R.getD k 0) h1 h2
  omega

theorem rp_zero {B E R} (hwf : WFB B E R) : getRestartPoint B 0 = 0 := by
  have hRlen := wfb_Rlen hwf
  have hn := wfb_numRestarts hwf
  rw [wfb_Roff hwf 0 (by omega), wfb_R0 hwf]
  exact wfb_off0 hwf

/-! ### Key reconstruction lemmas -/

theorem keyList_length (data : List Nat) :
    ∀ (E : List Entry) (prevKey : List Nat), (keyList data prevKey E).length = E.length := by
  intro E
  induction E with
  | nil =>
    intro prevKey
    rfl
  | cons e es ih =>
    intro prevKey
    simp [keyList, ih]

theorem keyList_getD_step (data : List Nat) :
    ∀ (E : List Entry) (prevKey : List Nat) (i : Nat), i + 1 < E.length →
      (keyList data prevKey E).getD (i + 1) [] =
        buildKey data ((keyList data prevKey E).getD i []) (eAt E (i + 1)) := by
  intro E
  induction E with
  | nil =>
    intro _ i h
    simp at h
  | cons e es ih =>
    intro prevKey i h
    cases i with
    | zero =>
      cases es with
      | nil => simp at h
      | cons e2 es2 => rfl
    | succ i =>
      have h2 : i + 1 < es.length := by
        simp at h
        omega
      show (keyList data (buildKey data prevKey e) es).getD (i + 1) [] =
        buildKey data ((keyList data (buildKey data prevKey e) es).getD i []) (eAt es (i + 1))
      exact ih (buildKey data prevKey e) i h2

theorem keyIdx_step (data : List Nat) (E : List Entry) (i : Nat) (hi : i + 1 < E.length) :
    keyIdx data E (i + 1) = buildKey data (keyIdx data E i) (eAt E (i + 1)) :=
  keyList_getD_step data E [] i hi

theorem keyIdx_zero (data : List Nat) (E : List Entry) (h : 0 < E.length) :
    keyIdx data E 0 = buildKey data [] (eAt E 0) := by
  cases E with
  | nil => simp at h
  | cons e es => rfl

theorem keyIdx_of_sh0 (data : List Nat) (E : List Entry) (i : Nat) (hi : i < E.length)
    (hsh : (eAt E i).shared = 0) :
    keyIdx data E i = sliceBytes data (eAt E i).hp (eAt E i).nonShared := by
  cases i with
  | zero =>
    rw [keyIdx_zero data E hi]
    unfold buildKey
    rw [hsh]
    simp
  | succ i =>
    rw [keyIdx_step data E i hi]
    unfold buildKey
    rw [hsh]
    simp

/-! ### Position predicates and the ParseNextKey step lemma -/

/-- The iterator is positioned exactly on entry `i`: current offset, key,
value slice, and a restart index that (a) is in range, (b) points at or
before the entry, and (c) dominates every restart strictly before the
entry. -/
def AtEntry (B : BlockEnv) (E : List Entry) (i : Nat) (st : IterState) : Prop :=
  i < E.length ∧
  st.current = (eAt E i).off ∧
  st.key = keyIdx B.data E i ∧
  st.valueOff = (eAt E i).hp + (eAt E i).nonShared ∧
  st.valueLen = (eAt E i).valueLen ∧
  st.restartIndex < B.numRestarts ∧
  getRestartPoint B st.restartIndex ≤ (eAt E i).off ∧
  (∀ j, j < B.numRestarts → getRestartPoint B j < (eAt E i).off → j ≤ st.restartIndex)

theorem fixupLoop_spec {B : BlockEnv} {E : List Entry} {R : List Nat} (hwf : WFB B E R)
    (current : Nat) :
    ∀ fuel ri ro, ri < B.numRestarts → B.numRestarts ≤ fuel + ri + 1 →
      ri ≤ (fixupLoop B current fuel ri ro).1 ∧
      (fixupLoop B current fuel ri ro).1 < B.numRestarts ∧
      (((fixupLoop B current fuel ri ro).1 = ri ∧ (fixupLoop B current fuel ri ro).2 = ro) ∨
        (ri < (fixupLoop B current fuel ri ro).1 ∧ (fixupLoop B current fuel ri ro).2 = 0 ∧
          getRestartPoint B (fixupLoop B current fuel ri ro).1 < current)) ∧
      ((fixupLoop B current fuel ri ro).1 + 1 < B.numRestarts →
        ¬ getRestartPoint B ((fixupLoop B current fuel ri ro).1 + 1) < current) := by
  intro fuel
  induction fuel with
  | zero =>
    intro ri ro hri hfuel
    unfold fixupLoop
    refine ⟨le_refl _, hri, Or.inl ⟨rfl, rfl⟩, ?_⟩
    intro hcon
    omega
  | succ fuel ih =>
    intro ri ro hri hfuel
    unfold fixupLoop
    split
    · rename_i hcond
      obtain ⟨hc1, hc2⟩ := hcond
      have := ih (ri + 1) 0 hc1 (by omega)
      obtain ⟨k1, k2, k3, k4⟩ := this
      refine ⟨by omega, k2, ?_, k4⟩
      rcases k3 with ⟨e1, e2⟩ | ⟨l1, l2, l3⟩
      · exact Or.inr ⟨by omega, e2, by rw [e1]; exact hc2⟩
      · exact Or.inr ⟨by omega, l2, l3⟩
    · rename_i hcond
      refine ⟨le_refl _, hri, Or.inl ⟨rfl, rfl⟩, ?_⟩
      intro h1 h2
      exact hcond ⟨h1, h2⟩

theorem parseNextKey_end (B : BlockEnv) (st : IterState)
    (hNEO : B.restarts ≤ nextEntryOffset st) :
    parseNextKey B st = (false, markInvalid B st) := by
  unfold parseNextKey
  rw [if_pos hNEO]

/-- The ParseNextKey step lemma: from a state whose next-entry offset is
entry `i`'s offset, with a sane restart index and a compatible key
buffer, `ParseNextKey` succeeds and lands exactly on entry `i`. -/
theorem parseNextKey_at {B : BlockEnv} {E : List Entry} {R : List Nat} (hwf : WFB B E R)
    (i : Nat) (st : IterState) (hi : i < E.length)
    (hNEO : nextEntryOffset st = (eAt E i).off)
    (hri : st.restartIndex < B.numRestarts)
    (hrp : getRestartPoint B st.restartIndex ≤ (eAt E i).off)
    (hkey : (eAt E i).shared = 0 ∨ (0 < i ∧ st.key = keyIdx B.data E (i - 1))) :
    (parseNextKey B st).1 = true ∧ AtEntry B E i (parseNextKey B st).2 ∧
      (parseNextKey B st).2.status = st.status ∧
      nextEntryOffset (parseNextKey B st).2 = entryEnd (eAt E i) := by
  have hlt : (eAt E i).off < B.restarts := off_lt_restarts hwf i hi
  have hdec := wfb_dec hwf i hi
  have hkeylen : ¬ st.key.length < (eAt E i).shared := by
    rcases hkey with h0 | ⟨hpos, hk⟩
    · rw [h0]
      omega
    · rw [hk]
      have h2 := wfb_shared hwf (i - 1) (by omega)
      rw [show i - 1 + 1 = i from by omega] at h2
      omega
  have hknew : st.key.take (eAt E i).shared ++ sliceBytes B.data (eAt E i).hp
      (eAt E i).nonShared = keyIdx B.data E i := by
    rcases hkey with h0 | ⟨hpos, hk⟩
    · rw [h0, List.take_zero, List.nil_append]
      exact (keyIdx_of_sh0 B.data E i hi h0).symm
    · rw [hk]
      have hs := keyIdx_step B.data E (i - 1) (by omega)
      rw [show i - 1 + 1 = i from by omega] at hs
      rw [hs]
      rfl
  have hfix := fixupLoop_spec hwf (eAt E i).off B.numRestarts st.restartIndex
    ((st.restartOffset + 1) % 2 ^ 32) hri (by omega)
  obtain ⟨k1, k2, k3, k4⟩ := hfix
  have hres : parseNextKey B st = (true,
      { current := (eAt E i).off
        restartIndex := (fixupLoop B (eAt E i).off B.numRestarts st.restartIndex
          ((st.restartOffset + 1) % 2 ^ 32)).1
        restartOffset := (fixupLoop B (eAt E i).off B.numRestarts st.restartIndex
          ((st.restartOffset + 1) % 2 ^ 32)).2
        key := st.key.take (eAt E i).shared ++ sliceBytes B.data (eAt E i).hp
          (eAt E i).nonShared
        valueOff := (eAt E i).hp + (eAt E i).nonShared
        valueLen := (eAt E i).valueLen
        status := st.status }) := by
    unfold parseNextKey
    rw [hNEO, if_neg (by omega), hdec]
    dsimp only
    rw [if_neg hkeylen]
  rw [hres]
  refine ⟨rfl, ⟨hi, rfl, by dsimp only; exact hknew, rfl, rfl, k2, ?_, ?_⟩, rfl, ?_⟩
  · show getRestartPoint B (fixupLoop B (eAt E i).off B.numRestarts st.restartIndex
      ((st.restartOffset + 1) % 2 ^ 32)).1 ≤ (eAt E i).off
    rcases k3 with ⟨e1, _⟩ | ⟨_, _, l3⟩
    · rw [e1]
      exact hrp
    · omega
  · show ∀ j, j < B.numRestarts → getRestartPoint B j < (eAt E i).off →
      j ≤ (fixupLoop B (eAt E i).off B.numRestarts st.restartIndex
        ((st.restartOffset + 1) % 2 ^ 32)).1
    intro j hj hjlt
    by_contra hgt
    push_neg at hgt
    have hstep : (fixupLoop B (eAt E i).off B.numRestarts st.restartIndex
        ((st.restartOffset + 1) % 2 ^ 32)).1 + 1 < B.numRestarts := by omega
    have hnot := k4 hstep
    rcases Nat.lt_or_ge ((fixupLoop B (eAt E i).off B.numRestarts st.restartIndex
        ((st.restartOffset + 1) % 2 ^ 32)).1 + 1) j with hcase | hcase
    · have := rp_strictMono hwf _ j hcase hj
      omega
    · have hje : j = (fixupLoop B (eAt E i).off B.numRestarts st.restartIndex
          ((st.restartOffset + 1) % 2 ^ 32)).1 + 1 := by omega
      rw [hje] at hjlt
      exact hnot hjlt
  · show (eAt E i).hp + (eAt E i).nonShared + (eAt E i).valueLen = entryEnd (eAt E i)
    rfl

/-! ### Scan-loop specifications -/

/-- Precondition for parsing entry `i` next (`i = E.length` meaning the
end of the entry region): in-range restart index pointing at or before
the target offset, next-entry offset equal to the target offset, and a
key buffer compatible with entry `i`'s `shared` prefix. -/
def PreP (B : BlockEnv) (E : List Entry) (i : Nat) (st : IterState) : Prop :=
  st.restartIndex < B.numRestarts ∧
  getRestartPoint B st.restartIndex ≤ (if i < E.length then (eAt E i).off else B.restarts) ∧
  nextEntryOffset st = (if i < E.length then (eAt E i).off else B.restarts) ∧
  ((eAt E i).shared = 0 ∨ (0 < i ∧ st.key = keyIdx B.data E (i - 1)))

theorem PreP_parse_at {B : BlockEnv} {E : List Entry} {R : List Nat} (hwf : WFB B E R)
    (i : Nat) (st : IterState) (hi : i < E.length) (hpre : PreP B E i st) :
    (parseNextKey B st).1 = true ∧ AtEntry B E i (parseNextKey B st).2 ∧
      (parseNextKey B st).2.status = st.status ∧
      nextEntryOffset (parseNextKey B st).2 = entryEnd (eAt E i) := by
  obtain ⟨hri, hrp, hNEO, hkey⟩ := hpre
  rw [if_pos hi] at hrp hNEO
  exact parseNextKey_at hwf i st hi hNEO hri hrp hkey

theorem PreP_parse_end {B : BlockEnv} {E : List Entry} {R : List Nat} (hwf : WFB B E R)
    (st : IterState) (hpre : PreP B E E.length st) :
    parseNextKey B st = (false, markInvalid B st) := by
  obtain ⟨hri, hrp, hNEO, hkey⟩ := hpre
  rw [if_neg (lt_irrefl _)] at hNEO
  exact parseNextKey_end B st (by omega)

theorem PreP_of_AtEntry {B : BlockEnv} {E : List Entry} {R : List Nat} (hwf : WFB B E R)
    {i : Nat} {st : IterState} (h : AtEntry B E i st) : PreP B E (i + 1) st := by
  obtain ⟨hi, hc, hk, hvo, hvl, hri, hrp, hdom⟩ := h
  have hNEO : nextEntryOffset st = entryEnd (eAt E i) := by
    unfold nextEntryOffset
    rw [hvo, hvl]
    rfl
  refine ⟨hri, ?_, ?_, Or.inr ⟨by omega, by simpa using hk⟩⟩
  · by_cases h2 : i + 1 < E.length
    · rw [if_pos h2]
      have := off_succ hwf i h2
      omega
    · rw [if_neg h2]
      have := off_lt_restarts hwf i hi
      omega
  · by_cases h2 : i + 1 < E.length
    · rw [if_pos h2, hNEO]
      exact (wfb_chain hwf i h2).symm
    · rw [if_neg h2, hNEO]
      rw [show i = E.length - 1 from by omega]
      exact wfb_last hwf

theorem PreP_strp {B : BlockEnv} {E : List Entry} {R : List Nat} (hwf : WFB B E R)
    (j : Nat) (hj : j < B.numRestarts) (st : IterState) :
    PreP B E (R.getD j 0) (seekToRestartPoint B j st) := by
  have hRlen := wfb_Rlen hwf
  have hs : R.getD j 0 < E.length := wfb_Rbound hwf j (by omega)
  have hoff := wfb_Roff hwf j (by omega)
  have hsh := wfb_Rsh hwf j (by omega)
  refine ⟨hj, ?_, ?_, Or.inl hsh⟩
  · rw [if_pos hs]
    show getRestartPoint B j ≤ (eAt E (R.getD j 0)).off
    omega
  · rw [if_pos hs]
    show getRestartPoint B j + 0 = (eAt E (R.getD j 0)).off
    omega

theorem seekScanAux_found {B : BlockEnv} {E : List Entry} {R : List Nat} (hwf : WFB B E R)
    (cmp : List Nat → List Nat → Int) (t : List Nat) :
    ∀ fuel i st j0, i ≤ E.length → PreP B E i st → E.length + 1 ≤ fuel + i →
      i ≤ j0 → j0 < E.length → 0 ≤ cmp (keyIdx B.data E j0) t →
      (∀ k, i ≤ k → k < j0 → cmp (keyIdx B.data E k) t < 0) →
      AtEntry B E j0 (seekScanAux B cmp t fuel st) ∧
        (seekScanAux B cmp t fuel st).status = st.status := by
  intro fuel
  induction fuel with
  | zero =>
    intro i st j0 hle hpre hfuel hij hj0 hcmp hbelow
    omega
  | succ fuel ih =>
    intro i st j0 hle hpre hfuel hij hj0 hcmp hbelow
    have hi : i < E.length := by omega
    obtain ⟨h1, h2, h3, h4⟩ := PreP_parse_at hwf i st hi hpre
    unfold seekScanAux
    rw [if_neg (by simp [h1])]
    have hkeyeq : (parseNextKey B st).2.key = keyIdx B.data E i := h2.2.2.1
    by_cases hstop : 0 ≤ cmp (keyIdx B.data E i) t
    · have hj0i : j0 = i := by
        by_contra hne
        have := hbelow i (le_refl i) (by omega)
        omega
      rw [if_pos (by rw [hkeyeq]; exact hstop)]
      subst hj0i
      exact ⟨h2, h3⟩
    · rw [if_neg (by rw [hkeyeq]; exact hstop)]
      have hij2 : i < j0 := by
        rcases Nat.lt_or_ge i j0 with hx | hx
        · exact hx
        · have : i = j0 := by omega
          subst this
          omega
      have hres := ih (i + 1) (parseNextKey B st).2 j0 (by omega)
        (PreP_of_AtEntry hwf h2) (by omega) (by omega) hj0 hcmp
        (fun k hk1 hk2 => hbelow k (by omega) hk2)
      exact ⟨hres.1, hres.2.trans h3⟩

theorem seekScanAux_notfound {B : BlockEnv} {E : List Entry} {R : List Nat} (hwf : WFB B E R)
    (cmp : List Nat → List Nat → Int) (t : List Nat) :
    ∀ fuel i st, i ≤ E.length → PreP B E i st → E.length + 1 ≤ fuel + i →
      (∀ k, i ≤ k → k < E.length → cmp (keyIdx B.data E k) t < 0) →
      (seekScanAux B cmp t fuel st).current = B.restarts ∧
        (seekScanAux B cmp t fuel st).restartIndex = B.numRestarts ∧
        (seekScanAux B cmp t fuel st).status = st.status := by
  intro fuel
  induction fuel with
  | zero =>
    intro i st hle hpre hfuel hbelow
    omega
  | succ fuel ih =>
    intro i st hle hpre hfuel hbelow
    by_cases hi : i < E.length
    · obtain ⟨h1, h2, h3, h4⟩ := PreP_parse_at hwf i st hi hpre
      unfold seekScanAux
      rw [if_neg (by simp [h1])]
      have hkeyeq : (parseNextKey B st).2.key = keyIdx B.data E i := h2.2.2.1
      have hstop : ¬ 0 ≤ cmp (keyIdx B.data E i) t := by
        have := hbelow i (le_refl i) hi
        omega
      rw [if_neg (by rw [hkeyeq]; exact hstop)]
      have hres := ih (i + 1) (parseNextKey B st).2 (by omega)
        (PreP_of_AtEntry hwf h2) (by omega)
        (fun k hk1 hk2 => hbelow k (by omega) hk2)
      exact ⟨hres.1, hres.2.1, hres.2.2.trans h3⟩
    · have hieq : i = E.length := by omega
      subst hieq
      have hend := PreP_parse_end hwf st hpre
      unfold seekScanAux
      rw [hend]
      rw [if_pos rfl]
      exact ⟨rfl, rfl, rfl⟩

theorem skipToEndAux_spec {B : BlockEnv} {E : List Entry} {R : List Nat} (hwf : WFB B E R) :
    ∀ fuel i st, i < E.length → PreP B E i st → E.length + 1 ≤ fuel + i →
      AtEntry B E (E.length - 1) (skipToEndAux B fuel st) ∧
        (skipToEndAux B fuel st).status = st.status := by
  intro fuel
  induction fuel with
  | zero =>
    intro i st hi hpre hfuel
    omega
  | succ fuel ih =>
    intro i st hi hpre hfuel
    obtain ⟨h1, h2, h3, h4⟩ := PreP_parse_at hwf i st hi hpre
    unfold skipToEndAux
    by_cases hcase : i + 1 < E.length
    · have hlt : nextEntryOffset (parseNextKey B st).2 < B.restarts := by
        rw [h4, ← wfb_chain hwf i hcase]
        exact off_lt_restarts hwf (i + 1) hcase
      rw [if_pos ⟨h1, hlt⟩]
      have hres := ih (i + 1) (parseNextKey B st).2 hcase (PreP_of_AtEntry hwf h2) (by omega)
      exact ⟨hres.1, hres.2.trans h3⟩
    · have heq : i = E.length - 1 := by omega
      have hge : ¬ nextEntryOffset (parseNextKey B st).2 < B.restarts := by
        rw [h4, heq, wfb_last hwf]
        omega
      rw [if_neg (by intro hcon; exact hge hcon.2)]
      rw [← heq]
      exact ⟨h2, h3⟩

theorem prevLoopAux_spec {B : BlockEnv} {E : List Entry} {R : List Nat} (hwf : WFB B E R)
    (m : Nat) (hm : m < E.length) :
    ∀ fuel i st, i < m → PreP B E i st → m + 1 ≤ fuel + i →
      AtEntry B E (m - 1) (prevLoopAux B (eAt E m).off fuel st) ∧
        (prevLoopAux B (eAt E m).off fuel st).status = st.status := by
  intro fuel
  induction fuel with
  | zero =>
    intro i st hi hpre hfuel
    omega
  | succ fuel ih =>
    intro i st him hpre hfuel
    have hi : i < E.length := by omega
    obtain ⟨h1, h2, h3, h4⟩ := PreP_parse_at hwf i st hi hpre
    unfold prevLoopAux
    by_cases hcase : i + 1 < m
    · have hlt : nextEntryOffset (parseNextKey B st).2 < (eAt E m).off := by
        rw [h4, ← wfb_chain hwf i (by omega)]
        have := off_mono hwf (i + 1) m hcase hm
        omega
      rw [if_pos ⟨h1, hlt⟩]
      have hres := ih (i + 1) (parseNextKey B st).2 (by omega) (PreP_of_AtEntry hwf h2)
        (by omega)
      exact ⟨hres.1, hres.2.trans h3⟩
    · have heq : i = m - 1 := by omega
      have hge : ¬ nextEntryOffset (parseNextKey B st).2 < (eAt E m).off := by
        rw [h4, ← wfb_chain hwf i (by omega), show i + 1 = m from by omega]
        omega
      rw [if_neg (by intro hcon; exact hge hcon.2)]
      rw [← heq]
      exact ⟨h2, h3⟩

/-! ### Per-operation positioning lemmas -/

theorem seekToFirst_at {B : BlockEnv} {E : List Entry} {R : List Nat} (hwf : WFB B E R)
    (st : IterState) :
    AtEntry B E 0 (seekToFirst B st) ∧ (seekToFirst B st).status = st.status := by
  have hn := wfb_numRestarts hwf
  have hpre := PreP_strp hwf 0 (by omega) st
  rw [wfb_R0 hwf] at hpre
  have hlen := wfb_len hwf
  obtain ⟨h1, h2, h3, h4⟩ := PreP_parse_at hwf 0 (seekToRestartPoint B 0 st) hlen hpre
  exact ⟨h2, h3⟩

theorem seekToLast_at {B : BlockEnv} {E : List Entry} {R : List Nat} (hwf : WFB B E R)
    (st : IterState) :
    AtEntry B E (E.length - 1) (seekToLast B st) ∧ (seekToLast B st).status = st.status := by
  have hn := wfb_numRestarts hwf
  have hRlen := wfb_Rlen hwf
  have hpre := PreP_strp hwf (B.numRestarts - 1) (by omega) st
  have hs : R.getD (B.numRestarts - 1) 0 < E.length :=
    wfb_Rbound hwf (B.numRestarts - 1) (by omega)
  have hres := skipToEndAux_spec hwf (B.restarts + 1) (R.getD (B.numRestarts - 1) 0)
    (seekToRestartPoint B (B.numRestarts - 1) st) hs hpre
    (by have := len_le_restarts hwf; omega)
  exact hres

theorem next_at {B : BlockEnv} {E : List Entry} {R : List Nat} (hwf : WFB B E R)
    {i : Nat} {st : IterState} (h : AtEntry B E i st) :
    (i + 1 < E.length → AtEntry B E (i + 1) (next B st) ∧ (next B st).status = st.status) ∧
    (i + 1 = E.length → next B st = markInvalid B st) := by
  have hpre := PreP_of_AtEntry hwf h
  constructor
  · intro hlt
    obtain ⟨h1, h2, h3, h4⟩ := PreP_parse_at hwf (i + 1) st hlt hpre
    exact ⟨h2, h3⟩
  · intro heq
    have : PreP B E E.length st := by
      rw [← heq]
      exact hpre
    have hend := PreP_parse_end hwf st this
    unfold next
    rw [hend]

theorem prevScanBack_none (B : BlockEnv) :
    ∀ ri, prevScanBack B 0 ri = none := by
  intro ri
  induction ri with
  | zero =>
    unfold prevScanBack
    rw [if_pos (Nat.zero_le _)]
  | succ ri ih =>
    unfold prevScanBack
    rw [if_pos (Nat.zero_le _)]
    exact ih

theorem prevScanBack_some {B : BlockEnv} {E : List Entry} {R : List Nat} (hwf : WFB B E R)
    (original : Nat) (h0 : 0 < original) :
    ∀ ri, ri < B.numRestarts →
      ∃ j, prevScanBack B original ri = some j ∧ j ≤ ri ∧
        getRestartPoint B j < original := by
  intro ri
  induction ri with
  | zero =>
    intro hri
    refine ⟨0, ?_, le_refl _, ?_⟩
    · unfold prevScanBack
      rw [if_neg (by rw [rp_zero hwf]; omega)]
    · rw [rp_zero hwf]
      omega
  | succ ri ih =>
    intro hri
    by_cases hcase : original ≤ getRestartPoint B (ri + 1)
    · obtain ⟨j, hj1, hj2, hj3⟩ := ih (by omega)
      refine ⟨j, ?_, by omega, hj3⟩
      unfold prevScanBack
      rw [if_pos hcase]
      exact hj1
    · refine ⟨ri + 1, ?_, le_refl _, by omega⟩
      unfold prevScanBack
      rw [if_neg hcase]

theorem prev_at {B : BlockEnv} {E : List Entry} {R : List Nat} (hwf : WFB B E R)
    {i : Nat} {st : IterState} (h : AtEntry B E i st) :
    (i = 0 → prev B st = markInvalid B st) ∧
    (0 < i → AtEntry B E (i - 1) (prev B st) ∧ (prev B st).status = st.status) := by
  obtain ⟨hi, hc, hk, hvo, hvl, hri, hrp, hdom⟩ := h
  constructor
  · intro hz
    subst hz
    unfold prev
    rw [hc, wfb_off0 hwf, prevScanBack_none B st.restartIndex]
  · intro hpos
    have hoffpos : 0 < (eAt E i).off := by
      have h0 := wfb_off0 hwf
      have := off_mono hwf 0 i hpos hi
      omega
    obtain ⟨j, hj1, hj2, hj3⟩ := prevScanBack_some hwf (eAt E i).off hoffpos
      st.restartIndex hri
    have hjn : j < B.numRestarts := by omega
    have hRlen := wfb_Rlen hwf
    have hs : R.getD j 0 < E.length := wfb_Rbound hwf j (by omega)
    have hsi : R.getD j 0 < i := by
      by_contra hge
      push_neg at hge
      rcases Nat.lt_or_ge i (R.getD j 0) with hx | hx
      · have := off_mono hwf i (R.getD j 0) hx hs
        rw [wfb_Roff hwf j (by omega)] at hj3
        omega
      · have : i = R.getD j 0 := by omega
        rw [wfb_Roff hwf j (by omega)] at hj3
        rw [← this] at hj3
        omega
    have hpre := PreP_strp hwf j hjn st
    have hres := prevLoopAux_spec hwf i hi (B.restarts + 1) (R.getD j 0)
      (seekToRestartPoint B j st) hsi hpre (by have := len_le_restarts hwf; omega)
    unfold prev
    rw [hc, hj1]
    exact hres

/-! ### Seek: binary search and assembly -/

/-- The laws of a comparator (a total preorder given by sign):
reflexivity and the two transitivity forms the seek proof needs. -/
structure CmpOk (cmp : List Nat → List Nat → Int) : Prop where
  refl : ∀ a, cmp a a = 0
  le_trans : ∀ a b c, cmp a b ≤ 0 → cmp b c ≤ 0 → cmp a c ≤ 0
  le_lt_trans : ∀ a b c, cmp a b ≤ 0 → cmp b c < 0 → cmp a c < 0

/-- Keys non-decreasing entry-to-entry extend to all index pairs. -/
theorem keys_sorted_global {B : BlockEnv} {E : List Entry} {R : List Nat} (hwf : WFB B E R)
    {cmp : List Nat → List Nat → Int} (hc : CmpOk cmp)
    (hadj : ∀ k, k + 1 < E.length → cmp (keyIdx B.data E k) (keyIdx B.data E (k + 1)) ≤ 0) :
    ∀ a b, a ≤ b → b < E.length → cmp (keyIdx B.data E a) (keyIdx B.data E b) ≤ 0 := by
  intro a b hab hb
  induction b with
  | zero =>
    have : a = 0 := by omega
    subst this
    rw [hc.refl]
  | succ b ih =>
    by_cases hcase : a = b + 1
    · subst hcase
      rw [hc.refl]
    · have h1 := ih (by omega) (by omega)
      exact hc.le_trans _ _ _ h1 (hadj b hb)

theorem seekBinAux_mem {B : BlockEnv} {E : List Entry} {R : List Nat} (hwf : WFB B E R)
    (cmp : List Nat → List Nat → Int) (t : List Nat) :
    ∀ fuel left right, left ≤ right → right < B.numRestarts → right + 1 ≤ fuel + left →
      ∃ L, seekBinAux B cmp t fuel left right = some L ∧ left ≤ L ∧ L ≤ right := by
  intro fuel
  induction fuel with
  | zero =>
    intro left right h1 h2 h3
    omega
  | succ fuel ih =>
    intro left right h1 h2 h3
    unfold seekBinAux
    by_cases hlr : left < right
    · rw [if_pos hlr]
      have hRlen := wfb_Rlen hwf
      have hmid1 : left < (left + right + 1) / 2 := by omega
      have hmid2 : (left + right + 1) / 2 ≤ right := by omega
      have hmidn : (left + right + 1) / 2 < B.numRestarts := by omega
      have hs : R.getD ((left + right + 1) / 2) 0 < E.length :=
        wfb_Rbound hwf _ (by omega)
      have hoff := wfb_Roff hwf ((left + right + 1) / 2) (by omega)
      have hsh := wfb_Rsh hwf ((left + right + 1) / 2) (by omega)
      have hdec := wfb_dec hwf _ hs
      rw [hoff, hdec]
      dsimp only
      rw [if_neg (by rw [hsh]; omega)]
      by_cases hcmp : cmp (sliceBytes B.data (eAt E (R.getD ((left + right + 1) / 2) 0)).hp
          (eAt E (R.getD ((left + right + 1) / 2) 0)).nonShared) t < 0
      · rw [if_pos hcmp]
        obtain ⟨L, hL, hL1, hL2⟩ := ih ((left + right + 1) / 2) right (by omega) h2 (by omega)
        exact ⟨L, hL, by omega, hL2⟩
      · rw [if_neg hcmp]
        obtain ⟨L, hL, hL1, hL2⟩ := ih left ((left + right + 1) / 2 - 1) (by omega)
          (by omega) (by omega)
        exact ⟨L, hL, hL1, by omega⟩
    · rw [if_neg hlr]
      exact ⟨left, rfl, le_refl _, by omega⟩

theorem seekBinAux_sorted {B : BlockEnv} {E : List Entry} {R : List Nat} (hwf : WFB B E R)
    {cmp : List Nat → List Nat → Int} (hc : CmpOk cmp)
    (hadj : ∀ k, k + 1 < E.length → cmp (keyIdx B.data E k) (keyIdx B.data E (k + 1)) ≤ 0)
    (t : List Nat) :
    ∀ fuel left right, left ≤ right → right < B.numRestarts → right + 1 ≤ fuel + left →
      (left = 0 ∨ cmp (keyIdx B.data E (R.getD left 0)) t < 0) →
      (∀ j, right < j → j < B.numRestarts → 0 ≤ cmp (keyIdx B.data E (R.getD j 0)) t) →
      ∃ L, seekBinAux B cmp t fuel left right = some L ∧ left ≤ L ∧ L ≤ right ∧
        (L = 0 ∨ cmp (keyIdx B.data E (R.getD L 0)) t < 0) ∧
        (∀ j, L < j → j < B.numRestarts → 0 ≤ cmp (keyIdx B.data E (R.getD j 0)) t) := by
  intro fuel
  induction fuel with
  | zero =>
    intro left right h1 h2 h3 hinv1 hinv2
    omega
  | succ fuel ih =>
    intro left right h1 h2 h3 hinv1 hinv2
    unfold seekBinAux
    by_cases hlr : left < right
    · rw [if_pos hlr]
      have hRlen := wfb_Rlen hwf
      have hmid1 : left < (left + right + 1) / 2 := by omega
      have hmid2 : (left + right + 1) / 2 ≤ right := by omega
      have hmidn : (left + right + 1) / 2 < B.numRestarts := by omega
      have hs : R.getD ((left + right + 1) / 2) 0 < E.length :=
        wfb_Rbound hwf _ (by omega)
      have hoff := wfb_Roff hwf ((left + right + 1) / 2) (by omega)
      have hsh := wfb_Rsh hwf ((left + right + 1) / 2) (by omega)
      have hdec := wfb_dec hwf _ hs
      have hslice : sliceBytes B.data (eAt E (R.getD ((left + right + 1) / 2) 0)).hp
          (eAt E (R.getD ((left + right + 1) / 2) 0)).nonShared =
          keyIdx B.data E (R.getD ((left + right + 1) / 2) 0) :=
        (keyIdx_of_sh0 B.data E _ hs hsh).symm
      rw [hoff, hdec]
      dsimp only
      rw [if_neg (by rw [hsh]; omega)]
      by_cases hcmp : cmp (sliceBytes B.data (eAt E (R.getD ((left + right + 1) / 2) 0)).hp
          (eAt E (R.getD ((left + right + 1) / 2) 0)).nonShared) t < 0
      · rw [if_pos hcmp]
        rw [hslice] at hcmp
        obtain ⟨L, hL, hL1, hL2, hL3, hL4⟩ :=
          ih ((left + right + 1) / 2) right (by omega) h2 (by omega) (Or.inr hcmp) hinv2
        exact ⟨L, hL, by omega, hL2, hL3, hL4⟩
      · rw [if_neg hcmp]
        rw [hslice] at hcmp
        have hinv2b : ∀ j, (left + right + 1) / 2 - 1 < j → j < B.numRestarts →
            0 ≤ cmp (keyIdx B.data E (R.getD j 0)) t := by
          intro j hj1 hj2
          rcases Nat.lt_or_ge right j with hcase | hcase
          · exact hinv2 j hcase hj2
          · by_contra hneg
            push_neg at hneg
            have hmj : (left + right + 1) / 2 ≤ j := by omega
            have hmono : cmp (keyIdx B.data E (R.getD ((left + right + 1) / 2) 0))
                (keyIdx B.data E (R.getD j 0)) ≤ 0 := by
              rcases Nat.lt_or_ge ((left + right + 1) / 2) j with hx | hx
              · have hRj : R.getD ((left + right + 1) / 2) 0 ≤ R.getD j 0 :=
                  le_of_lt (R_mono_general hwf _ j hx (by omega))
                exact keys_sorted_global hwf hc hadj _ _ hRj (wfb_Rbound hwf j (by omega))
              · have : (left + right + 1) / 2 = j := by omega
                rw [this, hc.refl]
            have := hc.le_lt_trans _ _ _ hmono hneg
            omega
        obtain ⟨L, hL, hL1, hL2, hL3, hL4⟩ :=
          ih left ((left + right + 1) / 2 - 1) (by omega) (by omega) (by omega) hinv1 hinv2b
        exact ⟨L, hL, hL1, by omega, hL3, hL4⟩
    · rw [if_neg hlr]
      exact ⟨left, rfl, le_refl _, by omega, hinv1, fun j hj1 hj2 => hinv2 j (by omega) hj2⟩

theorem valid_iff (B : BlockEnv) (st : IterState) :
    valid B st = true ↔ st.current < B.restarts := by
  unfold valid
  exact decide_eq_true_iff

theorem seek_op {B : BlockEnv} {E : List Entry} {R : List Nat} (hwf : WFB B E R)
    (cmp : List Nat → List Nat → Int) (t : List Nat) (st : IterState) :
    (∃ j, j < E.length ∧ AtEntry B E j (seek B cmp t st) ∧
      (seek B cmp t st).status = st.status) ∨
    ((seek B cmp t st).current = B.restarts ∧
      (seek B cmp t st).restartIndex = B.numRestarts ∧
      (seek B cmp t st).status = st.status) := by
  have hn := wfb_numRestarts hwf
  obtain ⟨L, hL, hL1, hL2⟩ := seekBinAux_mem hwf cmp t B.numRestarts 0 (B.numRestarts - 1)
    (by omega) (by omega) (by omega)
  have hLn : L < B.numRestarts := by omega
  have hRlen := wfb_Rlen hwf
  have hs : R.getD L 0 < E.length := wfb_Rbound hwf L (by omega)
  have hpre := PreP_strp hwf L hLn st
  have hlenle := len_le_restarts hwf
  unfold seek
  rw [hL]
  by_cases hex : ∃ j0, R.getD L 0 ≤ j0 ∧ j0 < E.length ∧ 0 ≤ cmp (keyIdx B.data E j0) t
  · have hspec := Nat.find_spec hex
    have hbelow : ∀ k, R.getD L 0 ≤ k → k < Nat.find hex →
        cmp (keyIdx B.data E k) t < 0 := by
      intro k h1 h2
      have hmin := Nat.find_min hex h2
      push_neg at hmin
      have hklen : k < E.length := by omega
      exact hmin h1 hklen
    have hfound := seekScanAux_found hwf cmp t (B.restarts + 1) (R.getD L 0)
      (seekToRestartPoint B L st) (Nat.find hex) (by omega) hpre (by omega)
      hspec.1 hspec.2.1 hspec.2.2 hbelow
    exact Or.inl ⟨Nat.find hex, hspec.2.1, hfound.1, hfound.2⟩
  · push_neg at hex
    have hnf := seekScanAux_notfound hwf cmp t (B.restarts + 1) (R.getD L 0)
      (seekToRestartPoint B L st) (by omega) hpre (by omega) hex
    exact Or.inr ⟨hnf.1, hnf.2.1, hnf.2.2⟩

theorem seek_sorted {B : BlockEnv} {E : List Entry} {R : List Nat} (hwf : WFB B E R)
    {cmp : List Nat → List Nat → Int} (hc : CmpOk cmp)
    (hadj : ∀ k, k + 1 < E.length → cmp (keyIdx B.data E k) (keyIdx B.data E (k + 1)) ≤ 0)
    (t : List Nat) (st : IterState) :
    (∀ j0, j0 < E.length → 0 ≤ cmp (keyIdx B.data E j0) t →
      (∀ k, k < j0 → cmp (keyIdx B.data E k) t < 0) →
      AtEntry B E j0 (seek B cmp t st) ∧ (seek B cmp t st).status = st.status) ∧
    ((∀ k, k < E.length → cmp (keyIdx B.data E k) t < 0) →
      (seek B cmp t st).current = B.restarts ∧
        (seek B cmp t st).restartIndex = B.numRestarts ∧
        (seek B cmp t st).status = st.status) := by
  have hn := wfb_numRestarts hwf
  obtain ⟨L, hL, hL1, hL2, hL3, hL4⟩ := seekBinAux_sorted hwf hc hadj t B.numRestarts 0
    (B.numRestarts - 1) (by omega) (by omega) (by omega) (Or.inl rfl)
    (by intro j h1 h2; omega)
  have hLn : L < B.numRestarts := by omega
  have hRlen := wfb_Rlen hwf
  have hs : R.getD L 0 < E.length := wfb_Rbound hwf L (by omega)
  have hpre := PreP_strp hwf L hLn st
  have hlenle := len_le_restarts hwf
  have hbefore : ∀ k, k < R.getD L 0 → cmp (keyIdx B.data E k) t < 0 := by
    intro k hk
    rcases hL3 with h0 | hlt
    · rw [h0, wfb_R0 hwf] at hk
      omega
    · have hsorted := keys_sorted_global hwf hc hadj k (R.getD L 0) (by omega) hs
      exact hc.le_lt_trans _ _ _ hsorted hlt
  constructor
  · intro j0 hj0 hge hltall
    have hs_le : R.getD L 0 ≤ j0 := by
      by_contra hgt
      push_neg at hgt
      have := hbefore j0 hgt
      omega
    have hfound := seekScanAux_found hwf cmp t (B.restarts + 1) (R.getD L 0)
      (seekToRestartPoint B L st) j0 (by omega) hpre (by omega) hs_le hj0 hge
      (fun k hk1 hk2 => hltall k hk2)
    unfold seek
    rw [hL]
    exact hfound
  · intro hall
    have hnf := seekScanAux_notfound hwf cmp t (B.restarts + 1) (R.getD L 0)
      (seekToRestartPoint B L st) (by omega) hpre (by omega)
      (fun k hk1 hk2 => hall k hk2)
    unfold seek
    rw [hL]
    exact hnf

/-- Every reachable valid state sits exactly on some entry. -/
theorem reach_inv {B : BlockEnv} {E : List Entry} {R : List Nat} (hwf : WFB B E R)
    (cmp : List Nat → List Nat → Int) :
    ∀ st, Reach B cmp st → valid B st = true → ∃ i, i < E.length ∧ AtEntry B E i st := by
  intro st hr
  induction hr with
  | init =>
    intro hv
    rw [valid_iff] at hv
    exact absurd hv (by unfold initIter; dsimp only; omega)
  | toFirst hprev ih =>
    intro _
    exact ⟨0, wfb_len hwf, (seekToFirst_at hwf _).1⟩
  | toLast hprev ih =>
    intro _
    exact ⟨E.length - 1, by have := wfb_len hwf; omega, (seekToLast_at hwf _).1⟩
  | doSeek t hprev ih =>
    intro hv
    rcases seek_op hwf cmp t _ with ⟨j, hj, hA, _⟩ | ⟨hcur, _, _⟩
    · exact ⟨j, hj, hA⟩
    · rw [valid_iff, hcur] at hv
      omega
  | doNext hprev hvst ih =>
    intro hv
    obtain ⟨i, hi, hA⟩ := ih hvst
    have h2 := next_at hwf hA
    by_cases hlt : i + 1 < E.length
    · exact ⟨i + 1, hlt, (h2.1 hlt).1⟩
    · have heq : i + 1 = E.length := by omega
      rw [valid_iff, h2.2 heq] at hv
      exact absurd hv (by unfold markInvalid; dsimp only; omega)
  | doPrev hprev hvst ih =>
    intro hv
    obtain ⟨i, hi, hA⟩ := ih hvst
    have h2 := prev_at hwf hA
    by_cases hz : i = 0
    · rw [valid_iff, h2.1 hz] at hv
      exact absurd hv (by unfold markInvalid; dsimp only; omega)
    · have h3 := h2.2 (by omega)
      exact ⟨i - 1, by omega, h3.1⟩

/-! ### The bytewise comparator is a total preorder -/

theorem bytewiseCompare_refl : ∀ a : List Nat, bytewiseCompare a a = 0 := by
  intro a
  induction a with
  | nil => rfl
  | cons x xs ih =>
    unfold bytewiseCompare
    rw [if_neg (lt_irrefl x), if_neg (lt_irrefl x)]
    exact ih

theorem bytewiseCompare_trans_aux : ∀ a b c : List Nat, bytewiseCompare a b ≤ 0 →
    (bytewiseCompare b c ≤ 0 → bytewiseCompare a c ≤ 0) ∧
    (bytewiseCompare b c < 0 → bytewiseCompare a c < 0) := by
  intro a
  induction a with
  | nil =>
    intro b c h1
    constructor
    · intro h2
      cases c with
      | nil =>
        have he : bytewiseCompare ([] : List Nat) [] = 0 := rfl
        rw [he]
      | cons z cs =>
        have he : bytewiseCompare [] (z :: cs) = -1 := rfl
        rw [he]
        norm_num
    · intro h2
      cases c with
      | nil =>
        exfalso
        cases b with
        | nil =>
          have he : bytewiseCompare ([] : List Nat) [] = 0 := rfl
          rw [he] at h2
          norm_num at h2
        | cons y bs =>
          have he : bytewiseCompare (y :: bs) [] = 1 := rfl
          rw [he] at h2
          norm_num at h2
      | cons z cs =>
        have he : bytewiseCompare [] (z :: cs) = -1 := rfl
        rw [he]
        norm_num
  | cons x as ih =>
    intro b c h1
    cases b with
    | nil =>
      exfalso
      have he : bytewiseCompare (x :: as) [] = 1 := rfl
      rw [he] at h1
      norm_num at h1
    | cons y bs =>
      cases c with
      | nil =>
        constructor
        · intro h2
          exfalso
          have he : bytewiseCompare (y :: bs) [] = 1 := rfl
          rw [he] at h2
          norm_num at h2
        · intro h2
          exfalso
          have he : bytewiseCompare (y :: bs) [] = 1 := rfl
          rw [he] at h2
          norm_num at h2
      | cons z cs =>
        by_cases hxy : x < y
        · have hnotzy : ∀ w : Int, w ≤ 0 ∨ w < 0 → bytewiseCompare (y :: bs) (z :: cs) = w →
              ¬ z < y := by
            intro w hw he hzy
            have he2 : bytewiseCompare (y :: bs) (z :: cs) = 1 := by
              rw [bytewiseCompare, if_neg (by omega : ¬ y < z), if_pos hzy]
            rw [he2] at he
            rcases hw with hw | hw <;> omega
          have hmain : ∀ w : Int, bytewiseCompare (y :: bs) (z :: cs) = w →
              (w ≤ 0 ∨ w < 0) → bytewiseCompare (x :: as) (z :: cs) < 0 := by
            intro w he hw
            by_cases hzy : z < y
            · exact absurd hzy (hnotzy w (by tauto) he)
            · have hxz : x < z := by
                by_cases hyz : y < z
                · omega
                · have : y = z := by omega
                  omega
              rw [bytewiseCompare, if_pos hxz]
              norm_num
          constructor
          · intro h2
            exact le_of_lt (hmain _ rfl (Or.inl h2))
          · intro h2
            exact hmain _ rfl (Or.inr h2)
        · by_cases hyx : y < x
          · exfalso
            have he : bytewiseCompare (x :: as) (y :: bs) = 1 := by
              rw [bytewiseCompare, if_neg hxy, if_pos hyx]
            rw [he] at h1
            norm_num at h1
          · have hxy2 : x = y := by omega
            subst hxy2
            have h1e : bytewiseCompare (x :: as) (x :: bs) = bytewiseCompare as bs := by
              rw [bytewiseCompare, if_neg (lt_irrefl x), if_neg (lt_irrefl x)]
            rw [h1e] at h1
            by_cases hxz : x < z
            · have hres : bytewiseCompare (x :: as) (z :: cs) < 0 := by
                rw [bytewiseCompare, if_pos hxz]
                norm_num
              exact ⟨fun _ => le_of_lt hres, fun _ => hres⟩
            · by_cases hzx : z < x
              · have he : bytewiseCompare (x :: bs) (z :: cs) = 1 := by
                  rw [bytewiseCompare, if_neg hxz, if_pos hzx]
                constructor <;> intro h2 <;> rw [he] at h2
                · exact absurd h2 (by norm_num)
                · exact absurd h2 (by norm_num)
              · have hxz2 : x = z := by omega
                subst hxz2
                have h2e : bytewiseCompare (x :: bs) (x :: cs) = bytewiseCompare bs cs := by
                  rw [bytewiseCompare, if_neg (lt_irrefl x), if_neg (lt_irrefl x)]
                have hge : bytewiseCompare (x :: as) (x :: cs) = bytewiseCompare as cs := by
                  rw [bytewiseCompare, if_neg (lt_irrefl x), if_neg (lt_irrefl x)]
                constructor <;> intro h2 <;> rw [h2e] at h2 <;> rw [hge]
                · exact (ih bs cs h1).1 h2
                · exact (ih bs cs h1).2 h2

theorem bytewiseCmpOk : CmpOk bytewiseCompare := by
  refine ⟨bytewiseCompare_refl, ?_, ?_⟩
  · intro a b c h1 h2
    exact (bytewiseCompare_trans_aux a b c h1).1 h2
  · intro a b c h1 h2
    exact (bytewiseCompare_trans_aux a b c h1).2 h2

/-! ### Status stickiness -/

theorem parseNextKey_status (B : BlockEnv) (st : IterState) :
    (parseNextKey B st).2.status = st.status ∨
    (parseNextKey B st).2.status = St.corruption "bad entry in block" := by
  unfold parseNextKey
  by_cases h1 : B.restarts ≤ nextEntryOffset st
  · rw [if_pos h1]
    left
    rfl
  · rw [if_neg h1]
    cases hd : decodeEntry B.data (nextEntryOffset st) B.restarts with
    | none =>
      right
      rfl
    | some t4 =>
      obtain ⟨sh, ns, vl, q⟩ := t4
      dsimp only
      by_cases h2 : st.key.length < sh
      · rw [if_pos h2]
        right
        rfl
      · rw [if_neg h2]
        left
        rfl

theorem status_ok_of_parse (B : BlockEnv) (st : IterState)
    (h : (parseNextKey B st).2.status = St.ok) : st.status = St.ok := by
  rcases parseNextKey_status B st with hs | hs
  · rw [hs] at h
    exact h
  · rw [hs] at h
    exact absurd h (by simp)

theorem skipToEndAux_status (B : BlockEnv) :
    ∀ fuel st, (skipToEndAux B fuel st).status = St.ok → st.status = St.ok := by
  intro fuel
  induction fuel with
  | zero =>
    intro st h
    exact h
  | succ fuel ih =>
    intro st h
    unfold skipToEndAux at h
    split at h
    · exact status_ok_of_parse B st (ih _ h)
    · exact status_ok_of_parse B st h

theorem prevLoopAux_status (B : BlockEnv) (original : Nat) :
    ∀ fuel st, (prevLoopAux B original fuel st).status = St.ok → st.status = St.ok := by
  intro fuel
  induction fuel with
  | zero =>
    intro st h
    exact h
  | succ fuel ih =>
    intro st h
    unfold prevLoopAux at h
    split at h
    · exact status_ok_of_parse B st (ih _ h)
    · exact status_ok_of_parse B st h

theorem seekScanAux_status (B : BlockEnv) (cmp : List Nat → List Nat → Int) (t : List Nat) :
    ∀ fuel st, (seekScanAux B cmp t fuel st).status = St.ok → st.status = St.ok := by
  intro fuel
  induction fuel with
  | zero =>
    intro st h
    exact h
  | succ fuel ih =>
    intro st h
    unfold seekScanAux at h
    split at h
    · exact status_ok_of_parse B st h
    · split at h
      · exact status_ok_of_parse B st h
      · exact status_ok_of_parse B st (ih _ h)

theorem applyOp_status (B : BlockEnv) (cmp : List Nat → List Nat → Int) (op : Op)
    (st : IterState) (h : (applyOp B cmp op st).status = St.ok) : st.status = St.ok := by
  cases op with
  | toFirst =>
    simp only [applyOp, seekToFirst] at h
    exact status_ok_of_parse B (seekToRestartPoint B 0 st) h
  | toLast =>
    simp only [applyOp, seekToLast] at h
    exact skipToEndAux_status B (B.restarts + 1) (seekToRestartPoint B (B.numRestarts - 1) st) h
  | doSeek t =>
    simp only [applyOp, seek] at h
    cases hb : seekBinAux B cmp t B.numRestarts 0 (B.numRestarts - 1) with
    | none =>
      rw [hb] at h
      dsimp only at h
      exact absurd h (by simp [corruptionError])
    | some L =>
      rw [hb] at h
      dsimp only at h
      exact seekScanAux_status B cmp t (B.restarts + 1) (seekToRestartPoint B L st) h
  | doNext =>
    simp only [applyOp, next] at h
    exact status_ok_of_parse B _ h
  | doPrev =>
    simp only [applyOp, prev] at h
    cases hb : prevScanBack B st.current st.restartIndex with
    | none =>
      rw [hb] at h
      dsimp only at h
      exact h
    | some ri =>
      rw [hb] at h
      dsimp only at h
      exact prevLoopAux_status B st.current (B.restarts + 1) (seekToRestartPoint B ri st) h

theorem applyOps_status (B : BlockEnv) (cmp : List Nat → List Nat → Int) :
    ∀ ops st, (applyOps B cmp ops st).status = St.ok → st.status = St.ok := by
  intro ops
  induction ops with
  | nil =>
    intro st h
    exact h
  | cons op ops ih =>
    intro st h
    exact applyOp_status B cmp op st (ih _ h)

/-- Decidability of bounded quantifiers in the `∀ i, i + 1 < n → _` shape
used by the well-formedness predicate. -/
instance decBallSuccLT (n : Nat) (P : ∀ i : Nat, i + 1 < n → Prop)
    [H : ∀ i h, Decidable (P i h)] : Decidable (∀ i h, P i h) :=
  have hd : Decidable (∀ i (h : i < n - 1), P i (by omega)) :=
    @Nat.decidableBallLT (n - 1) (fun i h => P i (by omega)) (fun i h => H i (by omega))
  @decidable_of_iff _ _ ⟨fun hL i h => hL i (by omega), fun hR i h => hR i (by omega)⟩ hd

/-! ### Concrete blocks for witnesses and counterexamples -/

/-- A concrete well-formed block: entries `("a","x")` and `("b","y")`,
each its own restart region; restart array `[0, 5]`, trailer
`num_restarts = 2`. -/
def wData : List Nat :=
  [0, 1, 1, 97, 120, 0, 1, 1, 98, 121, 0, 0, 0, 0, 5, 0, 0, 0, 2, 0, 0, 0]

/-- The block environment for `wData` (restart array at 10). -/
def wB : BlockEnv := ⟨wData, 10, 2⟩

/-- Entry layout of `wData`. -/
def wE : List Entry := [⟨0, 0, 1, 1, 3⟩, ⟨5, 0, 1, 1, 8⟩]

/-- Restart table of `wData` (entry indices). -/
def wR : List Nat := [0, 1]

/-- A block whose second entry claims `shared = 99` against a 1-byte
first key (corrupt); one restart. -/
def cData : List Nat := [0, 1, 1, 97, 120, 99, 1, 1, 98, 121, 0, 0, 0, 0, 1, 0, 0, 0]

/-- The block environment for `cData`. -/
def cB : BlockEnv := ⟨cData, 10, 1⟩

instance wfbDecidable (B : BlockEnv) (E : List Entry) (R : List Nat) :
    Decidable (WFB B E R) := by
  unfold WFB
  infer_instance

/-! ### Claims C1, C2, C6, C7 -/

/-- C1: on a well-formed block with at least one entry and a lawful
comparator under which the keys are non-decreasing, `Seek(t)` positions
the iterator on the smallest entry whose key is `≥ t` (its offset, key
and value are exposed), or invalidates the iterator with status ok when
no such entry exists. -/
theorem seek_positions_on_smallest_geq (B : BlockEnv) (E : List Entry) (R : List Nat)
    (cmp : List Nat → List Nat → Int) (hwf : WFB B E R) (hc : CmpOk cmp)
    (hadj : ∀ k, k + 1 < E.length → cmp (keyIdx B.data E k) (keyIdx B.data E (k + 1)) ≤ 0)
    (t : List Nat) (st : IterState) (hok : st.status = St.ok) :
    (∀ j0, j0 < E.length → 0 ≤ cmp (keyIdx B.data E j0) t →
      (∀ k, k < j0 → cmp (keyIdx B.data E k) t < 0) →
      valid B (seek B cmp t st) = true ∧
      (seek B cmp t st).current = (eAt E j0).off ∧
      (seek B cmp t st).key = keyIdx B.data E j0 ∧
      sliceBytes B.data (seek B cmp t st).valueOff (seek B cmp t st).valueLen =
        valIdx B.data E j0 ∧
      (seek B cmp t st).status = St.ok) ∧
    ((∀ k, k < E.length → cmp (keyIdx B.data E k) t < 0) →
      valid B (seek B cmp t st) = false ∧ (seek B cmp t st).status = St.ok) := by
  have hs := seek_sorted hwf hc hadj t st
  constructor
  · intro j0 hj0 hge hbelow
    obtain ⟨hA, hst⟩ := hs.1 j0 hj0 hge hbelow
    obtain ⟨_, hcur, hkey, hvo, hvl, _⟩ := hA
    refine ⟨?_, hcur, hkey, ?_, by rw [hst, hok]⟩
    · rw [valid_iff, hcur]
      exact off_lt_restarts hwf j0 hj0
    · rw [hvo, hvl]
      rfl
  · intro hall
    obtain ⟨hcur, _, hst⟩ := hs.2 hall
    constructor
    · unfold valid
      rw [hcur]
      simp
    · rw [hst, hok]

/-- C1 witness: seeking `"b"` in the concrete two-entry block lands on
entry 1. -/
theorem seek_positions_on_smallest_geq_witness :
    WFB wB wE wR ∧
    (∀ k, k + 1 < wE.length →
      bytewiseCompare (keyIdx wB.data wE k) (keyIdx wB.data wE (k + 1)) ≤ 0) ∧
    (initIter wB).status = St.ok ∧
    1 < wE.length ∧ 0 ≤ bytewiseCompare (keyIdx wB.data wE 1) [98] ∧
    (∀ k, k < 1 → bytewiseCompare (keyIdx wB.data wE k) [98] < 0) ∧
    (valid wB (seek wB bytewiseCompare [98] (initIter wB)) = true ∧
      (seek wB bytewiseCompare [98] (initIter wB)).current = (eAt wE 1).off ∧
      (seek wB bytewiseCompare [98] (initIter wB)).key = keyIdx wB.data wE 1 ∧
      sliceBytes wB.data (seek wB bytewiseCompare [98] (initIter wB)).valueOff
        (seek wB bytewiseCompare [98] (initIter wB)).valueLen = valIdx wB.data wE 1 ∧
      (seek wB bytewiseCompare [98] (initIter wB)).status = St.ok) :=
  ⟨by decide, by decide, by decide, by decide, by decide, by decide,
   (seek_positions_on_smallest_geq wB wE wR bytewiseCompare (by decide) bytewiseCmpOk
     (by decide) [98] (initIter wB) (by decide)).1 1 (by decide) (by decide) (by decide)⟩

/-- C2 counterexample: in the concrete block, `seek_first; next` reaches
the valid entry at offset 5, which sits exactly at restart point 1, yet
`restart_index` stays 0 — so it is not the largest `i` with
`restart_offset_of(i) ≤ current_offset`. -/
theorem restart_index_lags_at_boundary :
    valid wB (next wB (seekToFirst wB (initIter wB))) = true ∧
    (next wB (seekToFirst wB (initIter wB))).current = 5 ∧
    getRestartPoint wB 1 = 5 ∧ 1 < wB.numRestarts ∧
    (next wB (seekToFirst wB (initIter wB))).restartIndex = 0 ∧
    ¬ (∀ j, j < wB.numRestarts →
        getRestartPoint wB j ≤ (next wB (seekToFirst wB (initIter wB))).current →
        j ≤ (next wB (seekToFirst wB (initIter wB))).restartIndex) := by decide

/-- C2 (amended): in every reachable valid state, `restart_index` is in
range, its restart offset is at most `current_offset`, and it dominates
every restart index whose offset is strictly below `current_offset`
(equivalently, it is the largest index with `restart_offset_of(i) ≤
current_offset` except for an entry exactly at a restart point reached
by forward scanning, where it may be that index minus one — the
`ParseNextKey` fixup compares with strict `<`). -/
theorem restart_index_tracks_region (B : BlockEnv) (E : List Entry) (R : List Nat)
    (cmp : List Nat → List Nat → Int) (hwf : WFB B E R) (st : IterState)
    (hr : Reach B cmp st) (hv : valid B st = true) :
    st.restartIndex < B.numRestarts ∧
    getRestartPoint B st.restartIndex ≤ st.current ∧
    (∀ j, j < B.numRestarts → getRestartPoint B j < st.current → j ≤ st.restartIndex) := by
  obtain ⟨i, hi, hA⟩ := reach_inv hwf cmp st hr hv
  obtain ⟨_, hc, _, _, _, hri, hrp, hdom⟩ := hA
  rw [hc]
  exact ⟨hri, hrp, hdom⟩

/-- C2 (amended) witness. -/
theorem restart_index_tracks_region_witness :
    WFB wB wE wR ∧ valid wB (seekToFirst wB (initIter wB)) = true ∧
    ((seekToFirst wB (initIter wB)).restartIndex < wB.numRestarts ∧
      getRestartPoint wB (seekToFirst wB (initIter wB)).restartIndex ≤
        (seekToFirst wB (initIter wB)).current ∧
      (∀ j, j < wB.numRestarts →
        getRestartPoint wB j < (seekToFirst wB (initIter wB)).current →
        j ≤ (seekToFirst wB (initIter wB)).restartIndex)) :=
  ⟨by decide, by decide,
   restart_index_tracks_region wB wE wR bytewiseCompare (by decide) _
     (Reach.toFirst Reach.init) (by decide)⟩

/-- C6 counterexample: on the block with a corrupt second entry, `next`
detects corruption (sticky status, invalid, key cleared), but a later
`seek_first` makes `valid()` true again — with the first entry's key
exposed — so the iterator is not permanently invalid. -/
theorem corruption_not_permanently_invalid :
    (next cB (seekToFirst cB (initIter cB))).status = St.corruption "bad entry in block" ∧
    valid cB (next cB (seekToFirst cB (initIter cB))) = false ∧
    (next cB (seekToFirst cB (initIter cB))).key = [] ∧
    valid cB (seekToFirst cB (next cB (seekToFirst cB (initIter cB)))) = true ∧
    (seekToFirst cB (next cB (seekToFirst cB (initIter cB)))).status =
      St.corruption "bad entry in block" ∧
    (seekToFirst cB (next cB (seekToFirst cB (initIter cB)))).key = [97] := by decide

/-- C6 (amended): the corruption status is sticky — no sequence of
positioning operations can return the status to ok — and at the moment
of detection `CorruptionError` invalidates the iterator and clears both
key and value; but `valid()` itself can become true again after a later
seek (see the counterexample). -/
theorem corruption_status_sticky (B : BlockEnv) (cmp : List Nat → List Nat → Int)
    (ops : List Op) (st : IterState) (m : String)
    (h : st.status = St.corruption m) :
    (applyOps B cmp ops st).status ≠ St.ok ∧
    valid B (corruptionError B) = false ∧
    (corruptionError B).key = [] ∧ (corruptionError B).valueLen = 0 ∧
    (corruptionError B).status = St.corruption "bad entry in block" := by
  refine ⟨?_, ?_, rfl, rfl, rfl⟩
  · intro hok
    have h2 := applyOps_status B cmp ops st hok
    rw [h] at h2
    exact absurd h2 (by simp)
  · have h2 : ¬ (corruptionError B).current < B.restarts := by
      unfold corruptionError
      dsimp only
      omega
    unfold valid
    simpa using h2

/-- C6 (amended) witness. -/
theorem corruption_status_sticky_witness :
    (next cB (seekToFirst cB (initIter cB))).status = St.corruption "bad entry in block" ∧
    ((applyOps cB bytewiseCompare [Op.toFirst]
        (next cB (seekToFirst cB (initIter cB)))).status ≠ St.ok ∧
      valid cB (corruptionError cB) = false ∧
      (corruptionError cB).key = [] ∧ (corruptionError cB).valueLen = 0 ∧
      (corruptionError cB).status = St.corruption "bad entry in block") :=
  ⟨by decide,
   corruption_status_sticky cB bytewiseCompare [Op.toFirst]
     (next cB (seekToFirst cB (initIter cB))) "bad entry in block" (by decide)⟩

/-- C7: from any reachable valid position that is not the last entry,
`Next` followed by `Prev` returns to the same entry: same current
offset, same key, same value bytes, and the iterator is valid. -/
theorem next_prev_roundtrip (B : BlockEnv) (E : List Entry) (R : List Nat)
    (cmp : List Nat → List Nat → Int) (hwf : WFB B E R) (st : IterState)
    (hr : Reach B cmp st) (hv : valid B st = true)
    (hnl : st.current ≠ (eAt E (E.length - 1)).off) :
    (prev B (next B st)).current = st.current ∧
    (prev B (next B st)).key = st.key ∧
    sliceBytes B.data (prev B (next B st)).valueOff (prev B (next B st)).valueLen =
      sliceBytes B.data st.valueOff st.valueLen ∧
    valid B (prev B (next B st)) = true := by
  obtain ⟨i, hi, hA⟩ := reach_inv hwf cmp st hr hv
  have hA2 := hA
  obtain ⟨_, hc, hk, hvo, hvl, _⟩ := hA2
  have hlt : i + 1 < E.length := by
    by_contra hge
    push_neg at hge
    have heq : i = E.length - 1 := by omega
    rw [heq] at hc
    exact hnl hc
  have h2 := (next_at hwf hA).1 hlt
  have h3 := (prev_at hwf h2.1).2 (by omega)
  rw [show i + 1 - 1 = i from by omega] at h3
  obtain ⟨_, pc, pk, pvo, pvl, _⟩ := h3.1
  refine ⟨?_, ?_, ?_, ?_⟩
  · rw [pc, hc]
  · rw [pk, hk]
  · rw [pvo, pvl, hvo, hvl]
  · rw [valid_iff, pc]
    exact off_lt_restarts hwf i hi

/-- C7 witness: at entry 0 of the concrete block, `next; prev` returns
to entry 0. -/
theorem next_prev_roundtrip_witness :
    WFB wB wE wR ∧ valid wB (seekToFirst wB (initIter wB)) = true ∧
    (seekToFirst wB (initIter wB)).current ≠ (eAt wE (wE.length - 1)).off ∧
    ((prev wB (next wB (seekToFirst wB (initIter wB)))).current =
        (seekToFirst wB (initIter wB)).current ∧
      (prev wB (next wB (seekToFirst wB (initIter wB)))).key =
        (seekToFirst wB (initIter wB)).key ∧
      sliceBytes wB.data (prev wB (next wB (seekToFirst wB (initIter wB)))).valueOff
          (prev wB (next wB (seekToFirst wB (initIter wB)))).valueLen =
        sliceBytes wB.data (seekToFirst wB (initIter wB)).valueOff
          (seekToFirst wB (initIter wB)).valueLen ∧
      valid wB (prev wB (next wB (seekToFirst wB (initIter wB)))) = true) :=
  ⟨by decide, by decide, by decide,
   next_prev_roundtrip wB wE wR bytewiseCompare (by decide) _
     (Reach.toFirst Reach.init) (by decide) (by decide)⟩
